import Mathlib

/-!
Verification development for the OOXML presentation composition engine of
the proposal-pipeline repository.  The two verified components are the
ZIP-level package merger (src/proposal_pipeline/pptx_merger/merger.py) and
the content injector (src/proposal_pipeline/pptx_replacer/replacer.py),
plus the per-page orchestration loop (src/proposal_pipeline/pipeline/pipeline.py).

Strings are modelled as lists of characters (Python str semantics: exact
code-point sequences).  Floating point computations of the font auto-fit
pass are modelled by exact fractions.  Each helper definition mirrors one
Python function and is named after it.
-/

set_option autoImplicit false
set_option linter.unusedVariables false
set_option maxRecDepth 8192

namespace PPl

/-- Str models a Python str as a list of characters. -/
abbrev Str := List Char

/-- Bytes models the binary content of a file. -/
abbrev Bytes := List Nat

/-- strC converts a Lean string literal to the Str model. -/
def strC (s : String) : Str := s.data

/-- pfxOf p s is true when p is an initial segment of s (models str.startswith
and the initial-segment test of Python re matching). -/
def pfxOf : Str → Str → Bool
  | [], _ => true
  | _ :: _, [] => false
  | c :: p, d :: s => c = d && pfxOf p s

/-- occurs p s is true when p occurs as a contiguous substring of s
(models the Python `in` operator on str). -/
def occurs (p : Str) : Str → Bool
  | [] => pfxOf p []
  | s@(_ :: t) => pfxOf p s || occurs p t

/-- replaceLAux is the fuel-driven scan behind replaceL; fuel bounded by the
string length always suffices because every step consumes at least one
character. -/
def replaceLAux : Nat → Str → Str → Str → Str
  | 0, s, _, _ => s
  | fuel + 1, s, pat, val =>
    match s with
    | [] => []
    | c :: t =>
      if pat ≠ [] ∧ pfxOf pat (c :: t) = true then
        val ++ replaceLAux fuel ((c :: t).drop pat.length) pat val
      else
        c :: replaceLAux fuel t pat val

/-- replaceL s pat val models Python str.replace: scan left to right, replace
each non-overlapping occurrence of pat by val.  (Every pattern built by the
code is nonempty.) -/
def replaceL (s pat val : Str) : Str := replaceLAux s.length s pat val

/-! ### Decimal printing and parsing of part numbers -/

/-- digitChar renders one decimal digit as a character. -/
def digitChar (n : Nat) : Char := Char.ofNat (48 + n)

/-- isDigitC tests for an ASCII decimal digit (the characters matched by the
regular-expression class backslash-d on the filenames the code handles). -/
def isDigitC (c : Char) : Bool := 48 ≤ c.toNat && c.toNat ≤ 57

/-- natToStrAux is the fuel-driven digit emitter behind natToStr. -/
def natToStrAux : Nat → Nat → Str → Str
  | 0, _, acc => acc
  | fuel + 1, n, acc =>
    if n < 10 then digitChar (n % 10) :: acc
    else natToStrAux fuel (n / 10) (digitChar (n % 10) :: acc)

/-- natToStr renders a natural number in decimal, as Python str(int) does for
the nonnegative numbers handled by the merger. -/
def natToStr (n : Nat) : Str := natToStrAux (n + 1) n []

/-- parseNat? parses a nonempty all-digit string back into a number (models
int() applied to a regex digit group). -/
def parseNat? (s : Str) : Option Nat :=
  if s ≠ [] ∧ s.all isDigitC then
    some (s.foldl (fun a c => a * 10 + (c.toNat - 48)) 0)
  else none

/-! ### Placeholder token matching

The replacer finds tokens with the compiled pattern consisting of two opening
braces, one or more word characters, and two closing braces
(PLACEHOLDER_PATTERN in replacer.py).  Because a word character is never a
closing brace, the regex engine's greedy match-with-backtracking is equivalent
to the deterministic matcher below: take the maximal word-character run after
the two opening braces and require two closing braces right after it. -/

/-- wordRanges lists the inclusive codepoint intervals matched by the Python
regex word class \w on str patterns (Unicode word characters: alphanumerics as
defined by str.isalnum plus the underscore; Unicode 14.0), split into chunks. -/

def wordRangesA : List (Nat × Nat) := [
  (48, 57), (65, 90), (95, 95), (97, 122), (170, 170), (178, 179), (181, 181),
  (185, 186), (188, 190), (192, 214), (216, 246), (248, 705), (710, 721), (736, 740),
  (748, 748), (750, 750), (880, 884), (886, 887), (890, 893), (895, 895), (902, 902),
  (904, 906), (908, 908), (910, 929), (931, 1013), (1015, 1153), (1162, 1327), (1329, 1366),
  (1369, 1369), (1376, 1416), (1488, 1514), (1519, 1522), (1568, 1610), (1632, 1641), (1646, 1647),
  (1649, 1747), (1749, 1749), (1765, 1766), (1774, 1788), (1791, 1791), (1808, 1808), (1810, 1839),
  (1869, 1957), (1969, 1969), (1984, 2026), (2036, 2037), (2042, 2042), (2048, 2069), (2074, 2074),
  (2084, 2084), (2088, 2088), (2112, 2136), (2144, 2154), (2160, 2183), (2185, 2190), (2208, 2249),
  (2308, 2361), (2365, 2365), (2384, 2384), (2392, 2401), (2406, 2415), (2417, 2432), (2437, 2444),
  (2447, 2448), (2451, 2472), (2474, 2480), (2482, 2482), (2486, 2489), (2493, 2493), (2510, 2510),
  (2524, 2525), (2527, 2529), (2534, 2545), (2548, 2553), (2556, 2556), (2565, 2570), (2575, 2576),
  (2579, 2600), (2602, 2608), (2610, 2611), (2613, 2614), (2616, 2617), (2649, 2652), (2654, 2654),
  (2662, 2671), (2674, 2676), (2693, 2701), (2703, 2705), (2707, 2728), (2730, 2736), (2738, 2739),
  (2741, 2745), (2749, 2749), (2768, 2768), (2784, 2785), (2790, 2799), (2809, 2809), (2821, 2828),
  (2831, 2832), (2835, 2856), (2858, 2864), (2866, 2867), (2869, 2873), (2877, 2877), (2908, 2909),
  (2911, 2913), (2918, 2927), (2929, 2935), (2947, 2947), (2949, 2954), (2958, 2960), (2962, 2965),
  (2969, 2970), (2972, 2972), (2974, 2975), (2979, 2980), (2984, 2986), (2990, 3001), (3024, 3024),
  (3046, 3058), (3077, 3084), (3086, 3088), (3090, 3112), (3114, 3129), (3133, 3133), (3160, 3162),
  (3165, 3165), (3168, 3169), (3174, 3183), (3192, 3198), (3200, 3200), (3205, 3212), (3214, 3216),
  (3218, 3240), (3242, 3251), (3253, 3257), (3261, 3261), (3293, 3294), (3296, 3297), (3302, 3311),
  (3313, 3314), (3332, 3340), (3342, 3344), (3346, 3386), (3389, 3389), (3406, 3406), (3412, 3414),
  (3416, 3425), (3430, 3448), (3450, 3455), (3461, 3478), (3482, 3505), (3507, 3515), (3517, 3517),
  (3520, 3526), (3558, 3567), (3585, 3632), (3634, 3635), (3648, 3654), (3664, 3673), (3713, 3714),
  (3716, 3716), (3718, 3722), (3724, 3747), (3749, 3749), (3751, 3760), (3762, 3763), (3773, 3773),
  (3776, 3780), (3782, 3782), (3792, 3801), (3804, 3807), (3840, 3840), (3872, 3891), (3904, 3911),
  (3913, 3948), (3976, 3980), (4096, 4138), (4159, 4169), (4176, 4181), (4186, 4189), (4193, 4193),
  (4197, 4198), (4206, 4208), (4213, 4225), (4238, 4238), (4240, 4249), (4256, 4293), (4295, 4295),
  (4301, 4301), (4304, 4346), (4348, 4680), (4682, 4685), (4688, 4694), (4696, 4696), (4698, 4701),
  (4704, 4744), (4746, 4749), (4752, 4784), (4786, 4789)]

def wordRangesB : List (Nat × Nat) := [
  (4792, 4798), (4800, 4800), (4802, 4805), (4808, 4822), (4824, 4880), (4882, 4885), (4888, 4954),
  (4969, 4988), (4992, 5007), (5024, 5109), (5112, 5117), (5121, 5740), (5743, 5759), (5761, 5786),
  (5792, 5866), (5870, 5880), (5888, 5905), (5919, 5937), (5952, 5969), (5984, 5996), (5998, 6000),
  (6016, 6067), (6103, 6103), (6108, 6108), (6112, 6121), (6128, 6137), (6160, 6169), (6176, 6264),
  (6272, 6276), (6279, 6312), (6314, 6314), (6320, 6389), (6400, 6430), (6470, 6509), (6512, 6516),
  (6528, 6571), (6576, 6601), (6608, 6618), (6656, 6678), (6688, 6740), (6784, 6793), (6800, 6809),
  (6823, 6823), (6917, 6963), (6981, 6988), (6992, 7001), (7043, 7072), (7086, 7141), (7168, 7203),
  (7232, 7241), (7245, 7293), (7296, 7304), (7312, 7354), (7357, 7359), (7401, 7404), (7406, 7411),
  (7413, 7414), (7418, 7418), (7424, 7615), (7680, 7957), (7960, 7965), (7968, 8005), (8008, 8013),
  (8016, 8023), (8025, 8025), (8027, 8027), (8029, 8029), (8031, 8061), (8064, 8116), (8118, 8124),
  (8126, 8126), (8130, 8132), (8134, 8140), (8144, 8147), (8150, 8155), (8160, 8172), (8178, 8180),
  (8182, 8188), (8304, 8305), (8308, 8313), (8319, 8329), (8336, 8348), (8450, 8450), (8455, 8455),
  (8458, 8467), (8469, 8469), (8473, 8477), (8484, 8484), (8486, 8486), (8488, 8488), (8490, 8493),
  (8495, 8505), (8508, 8511), (8517, 8521), (8526, 8526), (8528, 8585), (9312, 9371), (9450, 9471),
  (10102, 10131), (11264, 11492), (11499, 11502), (11506, 11507), (11517, 11517), (11520, 11557), (11559, 11559),
  (11565, 11565), (11568, 11623), (11631, 11631), (11648, 11670), (11680, 11686), (11688, 11694), (11696, 11702),
  (11704, 11710), (11712, 11718), (11720, 11726), (11728, 11734), (11736, 11742), (11823, 11823), (12293, 12295),
  (12321, 12329), (12337, 12341), (12344, 12348), (12353, 12438), (12445, 12447), (12449, 12538), (12540, 12543),
  (12549, 12591), (12593, 12686), (12690, 12693), (12704, 12735), (12784, 12799), (12832, 12841), (12872, 12879),
  (12881, 12895), (12928, 12937), (12977, 12991), (13312, 19903), (19968, 42124), (42192, 42237), (42240, 42508),
  (42512, 42539), (42560, 42606), (42623, 42653), (42656, 42735), (42775, 42783), (42786, 42888), (42891, 42954),
  (42960, 42961), (42963, 42963), (42965, 42969), (42994, 43009), (43011, 43013), (43015, 43018), (43020, 43042),
  (43056, 43061), (43072, 43123), (43138, 43187), (43216, 43225), (43250, 43255), (43259, 43259), (43261, 43262),
  (43264, 43301), (43312, 43334), (43360, 43388), (43396, 43442), (43471, 43481), (43488, 43492), (43494, 43518),
  (43520, 43560), (43584, 43586), (43588, 43595), (43600, 43609), (43616, 43638), (43642, 43642), (43646, 43695),
  (43697, 43697), (43701, 43702), (43705, 43709), (43712, 43712), (43714, 43714), (43739, 43741), (43744, 43754),
  (43762, 43764), (43777, 43782), (43785, 43790), (43793, 43798), (43808, 43814), (43816, 43822), (43824, 43866),
  (43868, 43881), (43888, 44002), (44016, 44025), (44032, 55203), (55216, 55238), (55243, 55291), (63744, 64109),
  (64112, 64217), (64256, 64262), (64275, 64279), (64285, 64285)]

def wordRangesC : List (Nat × Nat) := [
  (64287, 64296), (64298, 64310), (64312, 64316), (64318, 64318), (64320, 64321), (64323, 64324), (64326, 64433),
  (64467, 64829), (64848, 64911), (64914, 64967), (65008, 65019), (65136, 65140), (65142, 65276), (65296, 65305),
  (65313, 65338), (65345, 65370), (65382, 65470), (65474, 65479), (65482, 65487), (65490, 65495), (65498, 65500),
  (65536, 65547), (65549, 65574), (65576, 65594), (65596, 65597), (65599, 65613), (65616, 65629), (65664, 65786),
  (65799, 65843), (65856, 65912), (65930, 65931), (66176, 66204), (66208, 66256), (66273, 66299), (66304, 66339),
  (66349, 66378), (66384, 66421), (66432, 66461), (66464, 66499), (66504, 66511), (66513, 66517), (66560, 66717),
  (66720, 66729), (66736, 66771), (66776, 66811), (66816, 66855), (66864, 66915), (66928, 66938), (66940, 66954),
  (66956, 66962), (66964, 66965), (66967, 66977), (66979, 66993), (66995, 67001), (67003, 67004), (67072, 67382),
  (67392, 67413), (67424, 67431), (67456, 67461), (67463, 67504), (67506, 67514), (67584, 67589), (67592, 67592),
  (67594, 67637), (67639, 67640), (67644, 67644), (67647, 67669), (67672, 67702), (67705, 67742), (67751, 67759),
  (67808, 67826), (67828, 67829), (67835, 67867), (67872, 67897), (67968, 68023), (68028, 68047), (68050, 68096),
  (68112, 68115), (68117, 68119), (68121, 68149), (68160, 68168), (68192, 68222), (68224, 68255), (68288, 68295),
  (68297, 68324), (68331, 68335), (68352, 68405), (68416, 68437), (68440, 68466), (68472, 68497), (68521, 68527),
  (68608, 68680), (68736, 68786), (68800, 68850), (68858, 68899), (68912, 68921), (69216, 69246), (69248, 69289),
  (69296, 69297), (69376, 69415), (69424, 69445), (69457, 69460), (69488, 69505), (69552, 69579), (69600, 69622),
  (69635, 69687), (69714, 69743), (69745, 69746), (69749, 69749), (69763, 69807), (69840, 69864), (69872, 69881),
  (69891, 69926), (69942, 69951), (69956, 69956), (69959, 69959), (69968, 70002), (70006, 70006), (70019, 70066),
  (70081, 70084), (70096, 70106), (70108, 70108), (70113, 70132), (70144, 70161), (70163, 70187), (70272, 70278),
  (70280, 70280), (70282, 70285), (70287, 70301), (70303, 70312), (70320, 70366), (70384, 70393), (70405, 70412),
  (70415, 70416), (70419, 70440), (70442, 70448), (70450, 70451), (70453, 70457), (70461, 70461), (70480, 70480),
  (70493, 70497), (70656, 70708), (70727, 70730), (70736, 70745), (70751, 70753), (70784, 70831), (70852, 70853),
  (70855, 70855), (70864, 70873), (71040, 71086), (71128, 71131), (71168, 71215), (71236, 71236), (71248, 71257),
  (71296, 71338), (71352, 71352), (71360, 71369), (71424, 71450), (71472, 71483), (71488, 71494), (71680, 71723),
  (71840, 71922), (71935, 71942), (71945, 71945), (71948, 71955), (71957, 71958), (71960, 71983), (71999, 71999),
  (72001, 72001), (72016, 72025), (72096, 72103), (72106, 72144), (72161, 72161), (72163, 72163), (72192, 72192),
  (72203, 72242), (72250, 72250), (72272, 72272), (72284, 72329), (72349, 72349), (72368, 72440), (72704, 72712),
  (72714, 72750), (72768, 72768), (72784, 72812), (72818, 72847), (72960, 72966), (72968, 72969), (72971, 73008),
  (73030, 73030), (73040, 73049), (73056, 73061), (73063, 73064), (73066, 73097), (73112, 73112), (73120, 73129),
  (73440, 73458), (73648, 73648), (73664, 73684), (73728, 74649)]

def wordRangesD : List (Nat × Nat) := [
  (74752, 74862), (74880, 75075), (77712, 77808), (77824, 78894), (82944, 83526), (92160, 92728), (92736, 92766),
  (92768, 92777), (92784, 92862), (92864, 92873), (92880, 92909), (92928, 92975), (92992, 92995), (93008, 93017),
  (93019, 93025), (93027, 93047), (93053, 93071), (93760, 93846), (93952, 94026), (94032, 94032), (94099, 94111),
  (94176, 94177), (94179, 94179), (94208, 100343), (100352, 101589), (101632, 101640), (110576, 110579), (110581, 110587),
  (110589, 110590), (110592, 110882), (110928, 110930), (110948, 110951), (110960, 111355), (113664, 113770), (113776, 113788),
  (113792, 113800), (113808, 113817), (119520, 119539), (119648, 119672), (119808, 119892), (119894, 119964), (119966, 119967),
  (119970, 119970), (119973, 119974), (119977, 119980), (119982, 119993), (119995, 119995), (119997, 120003), (120005, 120069),
  (120071, 120074), (120077, 120084), (120086, 120092), (120094, 120121), (120123, 120126), (120128, 120132), (120134, 120134),
  (120138, 120144), (120146, 120485), (120488, 120512), (120514, 120538), (120540, 120570), (120572, 120596), (120598, 120628),
  (120630, 120654), (120656, 120686), (120688, 120712), (120714, 120744), (120746, 120770), (120772, 120779), (120782, 120831),
  (122624, 122654), (123136, 123180), (123191, 123197), (123200, 123209), (123214, 123214), (123536, 123565), (123584, 123627),
  (123632, 123641), (124896, 124902), (124904, 124907), (124909, 124910), (124912, 124926), (124928, 125124), (125127, 125135),
  (125184, 125251), (125259, 125259), (125264, 125273), (126065, 126123), (126125, 126127), (126129, 126132), (126209, 126253),
  (126255, 126269), (126464, 126467), (126469, 126495), (126497, 126498), (126500, 126500), (126503, 126503), (126505, 126514),
  (126516, 126519), (126521, 126521), (126523, 126523), (126530, 126530), (126535, 126535), (126537, 126537), (126539, 126539),
  (126541, 126543), (126545, 126546), (126548, 126548), (126551, 126551), (126553, 126553), (126555, 126555), (126557, 126557),
  (126559, 126559), (126561, 126562), (126564, 126564), (126567, 126570), (126572, 126578), (126580, 126583), (126585, 126588),
  (126590, 126590), (126592, 126601), (126603, 126619), (126625, 126627), (126629, 126633), (126635, 126651), (127232, 127244),
  (130032, 130041), (131072, 173791), (173824, 177976), (177984, 178205), (178208, 183969), (183984, 191456), (194560, 195101),
  (196608, 201546)]

/-- wordRanges is the full interval table of the regex word class. -/
def wordRanges : List (Nat × Nat) :=
  wordRangesA ++ wordRangesB ++ wordRangesC ++ wordRangesD

/-- isWordChar models the regex word class \w of PLACEHOLDER_PATTERN: the
Python re module is Unicode-aware on str patterns, so membership is by
codepoint in the Unicode word-character intervals (this includes the Korean
placeholder keys the pipeline uses, such as 고객명). -/
def isWordChar (c : Char) : Bool :=
  wordRanges.any (fun p => p.1 ≤ c.toNat && c.toNat ≤ p.2)

/-- tokenAt s tries to match the placeholder pattern at the start of s and
returns the key and the remainder after the token. -/
def tokenAt (s : Str) : Option (Str × Str) :=
  match s with
  | c1 :: c2 :: t =>
    if c1 = '{' ∧ c2 = '{' then
      if t.takeWhile isWordChar = [] then none
      else
        match t.dropWhile isWordChar with
        | d1 :: d2 :: r2 =>
          if d1 = '}' ∧ d2 = '}' then some (t.takeWhile isWordChar, r2) else none
        | _ => none
    else none
  | _ => none

/-- hasToken s is true when the placeholder pattern matches anywhere in s
(models PLACEHOLDER_PATTERN.search returning a match). -/
def hasToken : Str → Bool
  | [] => false
  | c :: t => (tokenAt (c :: t)).isSome || hasToken t

/-- tokPat k is the literal string of a placeholder token with key k,
as produced by the Python f-string with quadruple braces around the key. -/
def tokPat (k : Str) : Str := '{' :: '{' :: (k ++ '}' :: '}' :: [])

/-- findTokensAux is the fuel-driven scan behind findTokens; fuel bounded by
the string length always suffices because every step consumes at least one
character. -/
def findTokensAux : Nat → Str → List Str
  | 0, _ => []
  | fuel + 1, s =>
    match s with
    | [] => []
    | c :: t =>
      match tokenAt (c :: t) with
      | some (k, r) => k :: findTokensAux fuel r
      | none => findTokensAux fuel t

/-- findTokens lists the keys of all placeholder matches in the order the
regex findall scan reports them: after each match, scanning resumes behind
the matched token. -/
def findTokens (s : Str) : List Str := findTokensAux s.length s

/-! ### Interleavings of plain text and tokens

For the substitution theorems a paragraph text is decomposed into chunks:
brace-free segments and well-formed tokens.  This is exactly the class of
texts on which sequential literal replacement cannot manufacture new tokens
out of adjacent brace characters. -/

/-- Chunk is one piece of a decomposed text: either plain brace-free text or
one placeholder token with its key. -/
inductive Chunk where
  | seg : Str → Chunk
  | tok : Str → Chunk
deriving DecidableEq

/-- renderChunk turns a chunk back into its literal text. -/
def renderChunk : Chunk → Str
  | .seg s => s
  | .tok k => tokPat k

/-- render concatenates the rendered chunks. -/
def render (cs : List Chunk) : Str := (cs.map renderChunk).flatten

/-- braceFree s states s contains no brace character. -/
def braceFree (s : Str) : Bool := s.all (fun c => ¬c = '{' ∧ ¬c = '}')

/-- goodKey k states k is a nonempty word-character string, exactly the keys
the placeholder pattern can match. -/
def goodKey (k : Str) : Bool := ¬k = [] ∧ k.all isWordChar

/-- chunksWF states every segment is brace-free and every token key is a
well-formed key. -/
def chunksWF (cs : List Chunk) : Bool :=
  cs.all fun c =>
    match c with
    | .seg s => braceFree s
    | .tok k => goodKey k

/-- replaceTok k v maps the token with key k to a segment holding v and
leaves every other chunk alone; this is the chunk-level picture of one
str.replace pass. -/
def replaceTok (k v : Str) : Chunk → Chunk
  | .seg s => .seg s
  | .tok k2 => if k2 = k then .seg v else .tok k2

/-- substFull performs the per-key literal replacements of
_replace_text_frame, in map iteration order. -/
def substFull (vars : List (Str × Str)) (t0 : Str) : Str :=
  vars.foldl (fun acc kv => replaceL acc (tokPat kv.1) kv.2) t0

/-- varsWF states all keys are well formed and all values are brace-free. -/
def varsWF (vars : List (Str × Str)) : Bool :=
  vars.all fun kv => goodKey kv.1 && braceFree kv.2

/-- applyVars is the chunk-level picture of the whole replacement fold. -/
def applyVars (vars : List (Str × Str)) (cs : List Chunk) : List Chunk :=
  vars.foldl (fun cs kv => cs.map (replaceTok kv.1 kv.2)) cs

/-! ### Small list and association-map helpers

The merger works on an unpacked directory tree; a directory of numbered part
files is modelled as an association list from the numeric suffix to the file
content, and writing a file is insert-or-overwrite. -/

/-- lookupA finds the value stored under a key (a file under a name). -/
def lookupA {κ α : Type} [DecidableEq κ] (m : List (κ × α)) (k : κ) : Option α :=
  (m.find? (fun p => p.1 = k)).map Prod.snd

/-- keysA lists the keys (the file names present). -/
def keysA {κ α : Type} (m : List (κ × α)) : List κ := m.map Prod.fst

/-- setKV models writing a file: overwrite the entry if the key exists,
otherwise append a new entry. -/
def setKV {κ α : Type} [DecidableEq κ] (m : List (κ × α)) (k : κ) (v : α) :
    List (κ × α) :=
  if k ∈ keysA m then m.map (fun p => if p.1 = k then (k, v) else p)
  else m ++ [(k, v)]

/-- updKV models rewriting an existing file in place through f; a missing key
is a missing file and the update is skipped. -/
def updKV {κ α : Type} [DecidableEq κ] (m : List (κ × α)) (k : κ) (f : α → α) :
    List (κ × α) :=
  m.map (fun p => if p.1 = k then (p.1, f p.2) else p)

/-- insSorted inserts a number into a sorted list (helper of sortNums). -/
def insSorted (n : Nat) : List Nat → List Nat
  | [] => [n]
  | m :: t => if n ≤ m then n :: m :: t else m :: insSorted n t

/-- sortNums sorts the extracted part numbers ascending, as _nums does with
sorted(). -/
def sortNums (l : List Nat) : List Nat := l.foldr insSorted []

/-- maxD models Python max(iterable, default=d). -/
def maxD (l : List Nat) (d : Nat) : Nat :=
  match l with
  | [] => d
  | x :: xs => xs.foldl max x

/-- numsOf extracts the sorted numeric suffixes of a part directory
(models _nums). -/
def numsOf {α : Type} (parts : List (Nat × α)) : List Nat :=
  sortNums (parts.map Prod.fst)

/-- maxKey is the maximum numeric suffix with default 0, the per-family
"sld"/"lay"/"mst"/"thm" values of _scan. -/
def maxKey {α : Type} (parts : List (Nat × α)) : Nat :=
  maxD (parts.map Prod.fst) 0

/-- strLtB is lexicographic comparison of strings by code point, the order
Python sorted() uses on str. -/
def strLtB : Str → Str → Bool
  | [], [] => false
  | [], _ :: _ => true
  | _ :: _, [] => false
  | a :: s, b :: t =>
    if a.toNat < b.toNat then true
    else if a.toNat = b.toNat then strLtB s t
    else false

/-- strLeB is the reflexive closure of strLtB. -/
def strLeB (a b : Str) : Bool := strLtB a b || a = b

/-! ### Package merger model (pptx_merger/merger.py)

A Container is the unpacked archive: the four numbered part families with
their sibling relationship files, the media directory, the presentation
manifest with its relationship file, and the content-type registry.  Master
parts expose their sldLayoutId list because _fix_master_layout_ids rewrites
it; every other part content is opaque bytes. -/

/-- Rel is one Relationship element: local id (the numeric part of rIdN), the
Type attribute and the Target attribute. -/
structure Rel where
  id : Nat
  rtype : Str
  target : Str
deriving DecidableEq

/-- MasterPart is a slide-master part: its sldLayoutIdLst id values (none
when the element is absent) and the rest of its bytes. -/
structure MasterPart where
  layoutIds : Option (List Nat)
  body : Bytes
deriving DecidableEq

/-- Manifest is presentation.xml: the sldIdLst entries (manifest id,
relationship id), the sldMasterIdLst entries, and the declared slide size. -/
structure Manifest where
  sldIds : List (Nat × Nat)
  mstIds : List (Nat × Nat)
  cx : Int
  cy : Int
deriving DecidableEq

/-- Container is one unpacked pptx archive. -/
structure Container where
  slides : List (Nat × Bytes)
  slideRels : List (Nat × List Rel)
  layouts : List (Nat × Bytes)
  layoutRels : List (Nat × List Rel)
  masters : List (Nat × MasterPart)
  masterRels : List (Nat × List Rel)
  themes : List (Nat × Bytes)
  media : List (Str × Bytes)
  pres : Manifest
  presRels : List Rel
  ctDefaults : List (Str × Str)
  ctOverrides : List (Str × Str)
deriving DecidableEq

/-- copyFam copies the files listed in keys from src into dst under shifted
numbers (models _copy_parts for one family, and for its rels files when
applied to the rels maps: a key without a rels entry is a missing file and is
skipped). -/
def copyFam {α : Type} (dst src : List (Nat × α)) (keys : List Nat) (off : Nat) :
    List (Nat × α) :=
  keys.foldl
    (fun acc n =>
      match lookupA src n with
      | some v => setKV acc (n + off) v
      | none => acc)
    dst

/-- insMedia inserts one media file into a name-sorted list. -/
def insMedia (p : Str × Bytes) : List (Str × Bytes) → List (Str × Bytes)
  | [] => [p]
  | q :: t => if strLeB p.1 q.1 then p :: q :: t else q :: insMedia p t

/-- sortMedia sorts media files by name, as sorted(src_media.iterdir())
does. -/
def sortMedia (l : List (Str × Bytes)) : List (Str × Bytes) :=
  l.foldr insMedia []

/-- stemExtAux splits a file name at its last dot. -/
def stemExtAux : Str → Option (Str × Str)
  | [] => none
  | c :: t =>
    match stemExtAux t with
    | some (st, ex) => some (c :: st, ex)
    | none => if c = '.' then some ([], c :: t) else none

/-- stemExt models Path.stem and Path.suffix for ordinary media file
names. -/
def stemExt (name : Str) : Str × Str :=
  match stemExtAux name with
  | some (st, ex) => (st, ex)
  | none => (name, [])

/-- mName builds the collision rename candidate stem_mN.ext. -/
def mName (stem ext : Str) (c : Nat) : Str :=
  stem ++ '_' :: 'm' :: (natToStr c ++ ext)

/-- freshNameAux is the while-loop of _copy_media trying candidates with
increasing counter; fuel one larger than the number of taken names always
suffices. -/
def freshNameAux (stem ext : Str) (existing : List Str) : Nat → Nat → Str
  | 0, c => mName stem ext c
  | fuel + 1, c =>
    if mName stem ext c ∈ existing then freshNameAux stem ext existing fuel (c + 1)
    else mName stem ext c

/-- copyMedia copies the source media directory into the base one in sorted
name order, renaming on collision, and returns the new directory together
with the rename map (models _copy_media). -/
def copyMedia (baseMedia srcMedia : List (Str × Bytes)) :
    List (Str × Bytes) × List (Str × Str) :=
  (sortMedia srcMedia).foldl
    (fun acc f =>
      let existing := acc.1.map Prod.fst
      if f.1 ∈ existing then
        let se := stemExt f.1
        let nm := freshNameAux se.1 se.2 existing (existing.length + 1) 1
        (acc.1 ++ [(nm, f.2)], acc.2 ++ [(f.1, nm)])
      else (acc.1 ++ [(f.1, f.2)], acc.2))
    (baseMedia, [])

/-- matchPartAt tries the part-reference pattern (the family file-name stem,
then one or more digits, then the xml extension) at one position of a
relationship target. -/
def matchPartAt (pre s : Str) : Option Nat :=
  if pfxOf pre s then
    let rest := s.drop pre.length
    let ds := rest.takeWhile isDigitC
    if ds = [] then none
    else if pfxOf (strC ".xml") (rest.drop ds.length) then parseNat? ds
    else none
  else none

/-- searchPartNum scans a target string for the leftmost part-reference
match, as re.search does. -/
def searchPartNum (pre : Str) : Str → Option Nat
  | [] => matchPartAt pre []
  | c :: t =>
    match matchPartAt pre (c :: t) with
    | some n => some n
    | none => searchPartNum pre t

/-- firstMatch finds the first family prefix in the part map list whose
pattern matches somewhere in the target (the loop over part_maps.items()
that breaks at the first regex match). -/
def firstMatch : List (Str × List Nat × Nat) → Str → Option (Str × Nat × List Nat × Nat)
  | [], _ => none
  | pm :: rest, t =>
    match searchPartNum pm.1 t with
    | some old => some (pm.1, old, pm.2.1, pm.2.2)
    | none => firstMatch rest t

/-- rewriteTarget reproduces _rewrite_rels on one Target attribute.  Note the
Python code keeps the original target variable while setting the attribute,
so a media rename overwrites any part renumbering applied to the same
target, and only the last matching media rename wins. -/
def rewriteTarget (partMaps : List (Str × List Nat × Nat))
    (mediaMap : List (Str × Str)) (t : Str) : Str :=
  let afterPart :=
    match firstMatch partMaps t with
    | some (pre, old, keys, off) =>
      if old ∈ keys then
        replaceL t (pre ++ natToStr old ++ strC ".xml")
          (pre ++ natToStr (old + off) ++ strC ".xml")
      else t
    | none => t
  match (mediaMap.filter (fun om => occurs om.1 t)).getLast? with
  | some om => replaceL t om.1 om.2
  | none => afterPart

/-- rewriteRels applies rewriteTarget to every relationship of one rels
file. -/
def rewriteRels (partMaps : List (Str × List Nat × Nat))
    (mediaMap : List (Str × Str)) (rels : List Rel) : List Rel :=
  rels.map (fun r => { r with target := rewriteTarget partMaps mediaMap r.target })

/-- stripNotesRefs removes every relationship whose Type mentions notesSlide
(models _strip_notes_refs). -/
def stripNotesRefs (rels : List Rel) : List Rel :=
  rels.filter (fun r => ¬occurs (strC "notesSlide") r.rtype = true)

/-- collectedIds gathers the shared master/layout manifest id space: the
sldMasterId ids of the manifest plus every master's sldLayoutId ids,
optionally excluding one master file (models _collect_all_ids). -/
def collectedIds (pres : Manifest) (masters : List (Nat × MasterPart))
    (excludeNum : Option Nat) : List Nat :=
  pres.mstIds.map Prod.fst ++
    masters.foldr
      (fun p acc =>
        if excludeNum = some p.1 then acc
        else
          (match p.2.layoutIds with
            | some ids => ids
            | none => []) ++ acc)
      []

/-- fixMasterM reallocates one master's sldLayoutId values above the current
maximum of the shared id space (models _fix_master_layout_ids; the manifest
is read-only here, so it is passed as a plain argument). -/
def fixMasterM (pres : Manifest) (masters : List (Nat × MasterPart)) (n : Nat) :
    List (Nat × MasterPart) :=
  match lookupA masters n with
  | none => masters
  | some m =>
    match m.layoutIds with
    | none => masters
    | some ids =>
      setKV masters n
        { m with
            layoutIds :=
              some
                ((List.range ids.length).map
                  (fun i => maxD (collectedIds pres masters (some n)) 2147483647 + 1 + i)) }

/-- updRelsAll rewrites each listed rels file in place through f (one pass of
the per-file rewrite loops of _append). -/
def updRelsAll (m : List (Nat × List Rel)) (ns : List Nat)
    (f : List Rel → List Rel) : List (Nat × List Rel) :=
  ns.foldl (fun acc n => updKV acc n f) m

/-- slideTarget is the Target attribute written for a registered slide. -/
def slideTarget (n : Nat) : Str := strC "slides/slide" ++ natToStr n ++ strC ".xml"

/-- masterTarget is the Target attribute written for a registered master. -/
def masterTarget (n : Nat) : Str :=
  strC "slideMasters/slideMaster" ++ natToStr n ++ strC ".xml"

/-- slideRelTypeStr is the relationship Type URL of a slide. -/
def slideRelTypeStr : Str :=
  strC "http://schemas.openxmlformats.org/officeDocument/2006/relationships/slide"

/-- masterRelTypeStr is the relationship Type URL of a slide master. -/
def masterRelTypeStr : Str :=
  strC "http://schemas.openxmlformats.org/officeDocument/2006/relationships/slideMaster"

/-- mkSldEntries allocates one manifest entry and one presentation-level
relationship per copied slide, with ids continuing past the given maxima in
ascending old-number order. -/
def mkSldEntries : List Nat → Nat → Nat → Nat → List ((Nat × Nat) × Rel)
  | [], _, _, _ => []
  | o :: t, off, rid, sid =>
    ((sid + 1, rid + 1), ⟨rid + 1, slideRelTypeStr, slideTarget (o + off)⟩) ::
      mkSldEntries t off (rid + 1) (sid + 1)

/-- mkMstEntries is the master counterpart of mkSldEntries. -/
def mkMstEntries : List Nat → Nat → Nat → Nat → List ((Nat × Nat) × Rel)
  | [], _, _, _ => []
  | o :: t, off, rid, mid =>
    ((mid + 1, rid + 1), ⟨rid + 1, masterRelTypeStr, masterTarget (o + off)⟩) ::
      mkMstEntries t off (rid + 1) (mid + 1)

/-- registerSlides appends the copied slides (in ascending old-number order)
and then the copied masters to the manifest and the presentation-level
relationship file, with relationship ids continuing from the maximum in use
(models _register_slides). -/
def registerSlides (c : Container) (sldKeys : List Nat) (sldOff : Nat)
    (mstKeys : List Nat) (mstOff : Nat) : Container :=
  let maxRid := (c.presRels.map Rel.id).foldl max 0
  let maxSid := maxD (c.pres.sldIds.map Prod.fst) 255
  let sldEntries := mkSldEntries (sortNums sldKeys) sldOff maxRid maxSid
  let maxRid2 := maxRid + (sortNums sldKeys).length
  let maxMid := maxD (collectedIds c.pres c.masters none) 2147483647
  let mstEntries := mkMstEntries (sortNums mstKeys) mstOff maxRid2 maxMid
  { c with
      pres :=
        { c.pres with
            sldIds := c.pres.sldIds ++ sldEntries.map Prod.fst,
            mstIds := c.pres.mstIds ++ mstEntries.map Prod.fst },
      presRels := c.presRels ++ sldEntries.map Prod.snd ++ mstEntries.map Prod.snd }

/-- slideCT and friends are the content types registered for copied parts. -/
def slideCT : Str :=
  strC "application/vnd.openxmlformats-officedocument.presentationml.slide+xml"

/-- layoutCT is the content type of a slide layout part. -/
def layoutCT : Str :=
  strC "application/vnd.openxmlformats-officedocument.presentationml.slideLayout+xml"

/-- masterCT is the content type of a slide master part. -/
def masterCT : Str :=
  strC "application/vnd.openxmlformats-officedocument.presentationml.slideMaster+xml"

/-- themeCT is the content type of a theme part. -/
def themeCT : Str :=
  strC "application/vnd.openxmlformats-officedocument.theme+xml"

/-- slidePartName is the Override PartName of a slide. -/
def slidePartName (n : Nat) : Str :=
  strC "/ppt/slides/slide" ++ natToStr n ++ strC ".xml"

/-- layoutPartName is the Override PartName of a slide layout. -/
def layoutPartName (n : Nat) : Str :=
  strC "/ppt/slideLayouts/slideLayout" ++ natToStr n ++ strC ".xml"

/-- masterPartName is the Override PartName of a slide master. -/
def masterPartName (n : Nat) : Str :=
  strC "/ppt/slideMasters/slideMaster" ++ natToStr n ++ strC ".xml"

/-- themePartName is the Override PartName of a theme. -/
def themePartName (n : Nat) : Str :=
  strC "/ppt/theme/theme" ++ natToStr n ++ strC ".xml"

/-- registerContentTypes appends one Override entry per copied part (models
_register_content_types). -/
def registerContentTypes (c : Container) (sldNew layNew mstNew thmNew : List Nat) :
    Container :=
  { c with
      ctOverrides :=
        c.ctOverrides ++ sldNew.map (fun n => (slidePartName n, slideCT)) ++
          layNew.map (fun n => (layoutPartName n, layoutCT)) ++
          mstNew.map (fun n => (masterPartName n, masterCT)) ++
          thmNew.map (fun n => (themePartName n, themeCT)) }

/-- copyDefaultTypes inserts at the front every source Default entry whose
extension the base registry does not have yet (models _copy_default_types,
whose insert at index zero puts later new entries before earlier ones). -/
def copyDefaultTypes (c : Container) (srcDefaults : List (Str × Str)) : Container :=
  let step :=
    srcDefaults.foldl
      (fun (acc : List (Str × Str) × List Str) e =>
        if e.1 ∈ acc.2 then acc else (e :: acc.1, e.1 :: acc.2))
      (c.ctDefaults, c.ctDefaults.map Prod.fst)
  { c with ctDefaults := step.1 }

/-- harmonizeSize adopts the larger slide canvas dimensions (models
_harmonize_size). -/
def harmonizeSize (c : Container) (srcPres : Manifest) : Container :=
  if srcPres.cx > c.pres.cx ∨ srcPres.cy > c.pres.cy then
    { c with
        pres :=
          { c.pres with
              cx := max c.pres.cx srcPres.cx,
              cy := max c.pres.cy srcPres.cy } }
  else c

/-- appendC folds one source container into the accumulating base (models
_append): scan, copy media, copy the four part families with their rels,
rewrite the copied rels and strip notes references, fix master layout ids,
register slides and masters in the manifest, register content types, copy
default extension entries, and harmonize the slide size. -/
def appendC (b s : Container) : Container :=
  let sldOff := maxKey b.slides
  let layOff := maxKey b.layouts
  let mstOff := maxKey b.masters
  let thmOff := maxKey b.themes
  let sldKeys := numsOf s.slides
  let layKeys := numsOf s.layouts
  let mstKeys := numsOf s.masters
  let thmKeys := numsOf s.themes
  let md := copyMedia b.media s.media
  let c1 : Container :=
    { b with
        media := md.1,
        slides := copyFam b.slides s.slides sldKeys sldOff,
        slideRels := copyFam b.slideRels s.slideRels sldKeys sldOff,
        layouts := copyFam b.layouts s.layouts layKeys layOff,
        layoutRels := copyFam b.layoutRels s.layoutRels layKeys layOff,
        masters := copyFam b.masters s.masters mstKeys mstOff,
        masterRels := copyFam b.masterRels s.masterRels mstKeys mstOff,
        themes := copyFam b.themes s.themes thmKeys thmOff }
  let slideMaps : List (Str × List Nat × Nat) := [(strC "slideLayout", layKeys, layOff)]
  let c2 :=
    { c1 with
        slideRels :=
          updRelsAll c1.slideRels (sldKeys.map (· + sldOff))
            (fun rl => stripNotesRefs (rewriteRels slideMaps md.2 rl)) }
  let layMaps : List (Str × List Nat × Nat) := [(strC "slideMaster", mstKeys, mstOff)]
  let c3 :=
    { c2 with
        layoutRels :=
          updRelsAll c2.layoutRels (layKeys.map (· + layOff))
            (rewriteRels layMaps md.2) }
  let mstMaps : List (Str × List Nat × Nat) :=
    [(strC "slideLayout", layKeys, layOff), (strC "theme", thmKeys, thmOff)]
  -- the source interleaves, per copied master, the rels rewrite and the
  -- layout-id fix; the two touch disjoint files, so they are folded here as
  -- two passes with identical effect
  let c4 :=
    { c3 with
        masterRels :=
          updRelsAll c3.masterRels (mstKeys.map (· + mstOff))
            (rewriteRels mstMaps md.2),
        masters := (mstKeys.map (· + mstOff)).foldl (fixMasterM c3.pres) c3.masters }
  let c5 := registerSlides c4 sldKeys sldOff mstKeys mstOff
  let c6 :=
    registerContentTypes c5 (sldKeys.map (· + sldOff)) (layKeys.map (· + layOff))
      (mstKeys.map (· + mstOff)) (thmKeys.map (· + thmOff))
  let c7 := copyDefaultTypes c6 s.ctDefaults
  harmonizeSize c7 s.pres

/-- mergeList folds every further source into the base, in call order. -/
def mergeList (b : Container) (srcs : List Container) : Container :=
  srcs.foldl appendC b

/-- mergeAndSave models PptxZipMerger.merge_and_save: empty input is a hard
error before any merging, otherwise the first source is the base and the
rest are appended in order. -/
def mergeAndSave (sources : List Container) : Except Str Container :=
  match sources with
  | [] => .error (strC "합성할 소스가 없습니다.")
  | b :: rest => .ok (mergeList b rest)

/-- sfxOf p s is true when p is a final segment of s. -/
def sfxOf (p s : Str) : Bool := pfxOf p.reverse s.reverse

/-- slideNumOfTarget parses the slide number out of a manifest relationship
target of the canonical slides/slideN.xml shape. -/
def slideNumOfTarget (t : Str) : Option Nat :=
  if pfxOf (strC "slides/slide") t then
    if sfxOf (strC ".xml") (t.drop (strC "slides/slide").length) then
      parseNat?
        ((t.drop (strC "slides/slide").length).take
          ((t.drop (strC "slides/slide").length).length - 4))
    else none
  else none

/-- lookupRelId finds the first relationship with the given local id. -/
def lookupRelId (rels : List Rel) (rid : Nat) : Option Rel :=
  rels.find? (fun r => r.id = rid)

/-- displayOrder reads the manifest display order as the slide part numbers
reached by resolving each sldIdLst entry through the presentation-level
relationship file. -/
def displayOrder (c : Container) : List Nat :=
  c.pres.sldIds.filterMap
    (fun e => (lookupRelId c.presRels e.2).bind (fun r => slideNumOfTarget r.target))

/-! ### Content injector model (pptx_replacer/replacer.py)

The injector operates on the parsed document: slides hold shapes; a shape may
carry a text frame and may carry a table; table cells hold text bodies whose
paragraphs hold runs.  Run properties keep the sz attribute because the font
auto-fit rewrites it.  The floating-point arithmetic of the auto-fit passes
is modelled by exact unnormalised fractions (every denominator built by the
code is positive). -/

/-- Frac is an exact fraction modelling a Python float computation. -/
structure Frac where
  num : Int
  den : Int
deriving DecidableEq

/-- ofIntF embeds an integer. -/
def ofIntF (n : Int) : Frac := ⟨n, 1⟩

/-- mulF multiplies fractions. -/
def mulF (a b : Frac) : Frac := ⟨a.num * b.num, a.den * b.den⟩

/-- subF subtracts fractions. -/
def subF (a b : Frac) : Frac := ⟨a.num * b.den - b.num * a.den, a.den * b.den⟩

/-- divF divides fractions. -/
def divF (a b : Frac) : Frac := ⟨a.num * b.den, a.den * b.num⟩

/-- bltF compares fractions strictly (valid for positive denominators, which
all denominators built by the modelled code are). -/
def bltF (a b : Frac) : Bool := a.num * b.den < b.num * a.den

/-- bleF compares fractions non-strictly. -/
def bleF (a b : Frac) : Bool := a.num * b.den ≤ b.num * a.den

/-- maxF models Python max on two floats. -/
def maxF (a b : Frac) : Frac := if bltF a b then b else a

/-- tzDiv is integer division truncating toward zero, the behaviour of
Python int() on a float quotient. -/
def tzDiv (n d : Int) : Int := (n.sign * d.sign) * ((n.natAbs / d.natAbs : Nat) : Int)

/-- truncF truncates a fraction toward zero (Python int()). -/
def truncF (f : Frac) : Int := tzDiv f.num f.den

/-- isWs models the default Python str.strip character class for the
characters appearing in slide text. -/
def isWs (c : Char) : Bool := c.isWhitespace

/-- pstrip models str.strip(). -/
def pstrip (s : Str) : Str := ((s.dropWhile isWs).reverse.dropWhile isWs).reverse

/-- splitNl models str.split of a newline separator, which always yields at
least one (possibly empty) segment. -/
def splitNl : Str → List Str
  | [] => [[]]
  | c :: t =>
    if c = '\n' then [] :: splitNl t
    else
      match splitNl t with
      | l :: ls => (c :: l) :: ls
      | [] => [[c]]

/-- sanitize models _sanitize_text: vertical tab and form feed become
newlines, remaining XML-incompatible control characters are dropped. -/
def sanitize (t : Str) : Str :=
  (t.map (fun c => if c.toNat = 11 ∨ c.toNat = 12 then '\n' else c)).filter
    (fun c => ¬(c.toNat ≤ 8 ∨ (14 ≤ c.toNat ∧ c.toNat ≤ 31)))

/-- RPr is an a:rPr run-properties element with its optional sz attribute in
hundredths of a point. -/
structure RPr where
  sz : Option Int
deriving DecidableEq

/-- XRun is an a:r run: optional run properties and the optional a:t text
child. -/
structure XRun where
  rPr : Option RPr
  text : Option Str
deriving DecidableEq

/-- XPara is an a:p paragraph as its list of runs. -/
abbrev XPara := List XRun

/-- TxBody is an a:txBody (or a shape text frame) as its paragraphs. -/
abbrev TxBody := List XPara

/-- Cell is an a:tc table cell with its txBody children (one in well-formed
documents; the code reads the first). -/
structure Cell where
  bodies : List TxBody
deriving DecidableEq

/-- Row is an a:tr table row with its optional height attribute. -/
structure Row where
  h : Option Int
  cells : List Cell
deriving DecidableEq

/-- Table is an a:tbl with its grid column widths and rows. -/
structure Table where
  grid : List Int
  rows : List Row
deriving DecidableEq

/-- TopicRow is the curriculum record injected into a table row. -/
structure TopicRow where
  subject : Str
  hours : Str
  content : Str
  exercise : Str
deriving DecidableEq

/-- topicField is the fixed ordered field list col_fields of inject_table. -/
def topicField (t : TopicRow) : Nat → Str
  | 0 => t.subject
  | 1 => t.hours
  | 2 => t.content
  | 3 => t.exercise
  | _ => []

/-- Shape is one slide shape with the attributes the injector reads: the
shape type (13 is PICTURE), the bounding box, the optional text frame, the
optional table, and the r:embed ids of its a:blip children. -/
structure Shape where
  shapeType : Int
  width : Int
  height : Int
  top : Int
  textFrame : Option TxBody
  table : Option Table
  blips : List Nat
  name : Str
deriving DecidableEq

/-- Slide is a slide with its shapes and the image parts reachable through
its relationship file, keyed by relationship id. -/
structure Slide where
  shapes : List Shape
  imageParts : List (Nat × Bytes)
deriving DecidableEq

/-- Prs is the opened presentation: slide height and slides. -/
structure Prs where
  slideHeight : Int
  slides : List Slide
deriving DecidableEq

/-- paraRunsText concatenates the run texts of one paragraph (the full_text
of _replace_text_frame; the python-pptx run text getter yields the empty
string for a run without text). -/
def paraRunsText (p : XPara) : Str := (p.map (fun r => r.text.getD [])).flatten

/-- substRun writes text into a run through the python-pptx text setter. -/
def substRun (r : XRun) (txt : Str) : XRun := { r with text := some txt }

/-- substPara models one paragraph pass of _replace_text_frame: when the
pattern matches the joined text, substitute every variable, write the result
into the first run and clear the rest. -/
def substPara (vars : List (Str × Str)) (p : XPara) : XPara :=
  let full := paraRunsText p
  if hasToken full then
    match p with
    | [] => p
    | r0 :: rest => substRun r0 (substFull vars full) :: rest.map (fun r => substRun r [])
  else p

/-- substTextFrame substitutes every paragraph of a text frame. -/
def substTextFrame (vars : List (Str × Str)) (tf : TxBody) : TxBody :=
  tf.map (substPara vars)

/-- substCell substitutes through a cell text frame (its first txBody). -/
def substCell (vars : List (Str × Str)) (c : Cell) : Cell :=
  match c.bodies with
  | [] => c
  | b :: rest => { c with bodies := substTextFrame vars b :: rest }

/-- substTable substitutes every cell of a table (_replace_table). -/
def substTable (vars : List (Str × Str)) (t : Table) : Table :=
  { t with rows := t.rows.map (fun r => { r with cells := r.cells.map (substCell vars) }) }

/-- substShape substitutes the shape text frame and the shape table
(_replace_slide body). -/
def substShape (vars : List (Str × Str)) (sh : Shape) : Shape :=
  let sh1 :=
    match sh.textFrame with
    | some tf => { sh with textFrame := some (substTextFrame vars tf) }
    | none => sh
  match sh1.table with
  | some t => { sh1 with table := some (substTable vars t) }
  | none => sh1

/-- substitute models PptxFileReplacer.replace on the opened document. -/
def substitute (vars : List (Str × Str)) (prs : Prs) : Prs :=
  { prs with
      slides :=
        prs.slides.map (fun sl => { sl with shapes := sl.shapes.map (substShape vars) }) }

/-- setCellText models _set_cell_text: sanitize, write the text into the
first run of the first paragraph of the first txBody (only when that run has
an a:t child), drop the other runs of that paragraph and the other
paragraphs. -/
def setCellText (c : Cell) (txt0 : Str) : Cell :=
  let txt := sanitize txt0
  match c.bodies with
  | [] => c
  | body :: restB =>
    match body with
    | [] => c
    | p0 :: restP =>
      let p1 : XPara :=
        match p0 with
        | [] => []
        | r0 :: rrest => [{ r0 with text := r0.text.map (fun _ => txt) }]
      { c with bodies := [p1] :: restB }

/-- injectRow clones the row template and fills each of the first four cells
from the fixed field list (cells beyond the field list keep the template
text; fields beyond the cell count are dropped). -/
def injectRow (template : Row) (t : TopicRow) : Row :=
  { template with
      cells :=
        template.cells.mapIdx
          (fun ci c => if ci < 4 then setCellText c (topicField t ci) else c) }

/-- findTable returns the first table on a slide (models _find_table). -/
def findTable (sl : Slide) : Option Table :=
  (sl.shapes.find? (fun sh => sh.table.isSome)).bind (fun sh => sh.table)

/-- updFirstTable rewrites the table of the first shape carrying one. -/
def updFirstTable (f : Table → Table) : List Shape → List Shape
  | [] => []
  | sh :: rest =>
    match sh.table with
    | some t => { sh with table := some (f t) } :: rest
    | none => sh :: updFirstTable f rest

/-- autoFitRows models _auto_fit_rows: distribute the slide height below the
table top (minus the fixed bottom margin and the header height) uniformly
over the data rows, floored at the minimum row height. -/
def autoFitRows (prs : Prs) (sl : Slide) (numDataRows : Nat) : Slide × Option Int :=
  if numDataRows = 0 then (sl, none)
  else
    match sl.shapes.find? (fun sh => sh.table.isSome) with
    | none => (sl, none)
    | some sh =>
      match sh.table with
      | none => (sl, none)
      | some tbl =>
        if tbl.rows.length < 2 then (sl, none)
        else
          let availableHeight := prs.slideHeight - sh.top - 274320
          let headerH := (tbl.rows.head?.map (fun r => r.h.getD 0)).getD 0
          let dataArea := availableHeight - headerH
          let drh := max (Int.fdiv dataArea numDataRows) 457200
          let newRows :=
            match tbl.rows with
            | [] => tbl.rows
            | hrow :: drows => hrow :: drows.map (fun r => { r with h := some drh })
          ({ sl with
              shapes := updFirstTable (fun t => { t with rows := newRows }) sl.shapes },
            some drh)

/-- extractCellText models _extract_cell_text: the concatenated run texts of
the first txBody. -/
def extractCellText (c : Cell) : Str :=
  match c.bodies with
  | [] => []
  | b :: _ => (b.map (fun p => (p.filterMap (fun r => r.text)).flatten)).flatten

/-- baseSzOf extracts the base font size from the first data row: the first
cell carrying a txBody contributes the first sz found among the runs of its
first paragraph, with default 1100 (11 pt). -/
def baseSzOf (tbl : Table) : Int :=
  match tbl.rows with
  | _ :: fd :: _ =>
    (match fd.cells.find? (fun tc => ¬tc.bodies.isEmpty) with
      | none => 1100
      | some tc =>
        match tc.bodies with
        | [] => 1100
        | b :: _ =>
          match b with
          | [] => 1100
          | p :: _ =>
            match p.findSome? (fun r => r.rPr.bind (fun pr => pr.sz)) with
            | some sz => sz
            | none => 1100)
  | _ => 1100

/-- estimateTextLines models _estimate_text_lines with exact fractions:
usable width from the column width, characters per line from the empirical
character width, then explicit line breaks with empty segments counting one
half line. -/
def estimateTextLines (text : Str) (colWidthEmu : Int) (fontPt : Frac) : Nat :=
  let colInches : Frac := ⟨colWidthEmu, 914400⟩
  let usable := maxF (subF colInches ⟨1, 5⟩) ⟨1, 2⟩
  let charW := mulF fontPt ⟨12, 1000⟩
  let cpl := (max 1 (truncF (divF usable charW))).toNat
  let segs := splitNl text
  let wholes :=
    segs.foldl
      (fun acc seg =>
        let l := pstrip seg
        if l = [] then acc else acc + (l.length + cpl - 1) / cpl)
      0
  let halves := segs.foldl (fun acc seg => if pstrip seg = [] then acc + 1 else acc) 0
  wholes + (halves + 1) / 2

/-- worstInRowAux scans one row's cells: designated columns two and three
only, stopping at the end of the grid, skipping empty cells. -/
def worstInRowAux (colW : List Int) (fontPt : Frac) : List Cell → Nat → Nat
  | [], _ => 0
  | c :: rest, ci =>
    if ci = 2 ∨ ci = 3 then
      if colW.length ≤ ci then 0
      else
        let t := extractCellText c
        if t = [] then worstInRowAux colW fontPt rest (ci + 1)
        else max (estimateTextLines t (colW.getD ci 0) fontPt) (worstInRowAux colW fontPt rest (ci + 1))
    else worstInRowAux colW fontPt rest (ci + 1)

/-- worstLinesOf is the worst estimated line count over all data rows. -/
def worstLinesOf (tbl : Table) (fontPt : Frac) : Nat :=
  (tbl.rows.drop 1).foldl (fun acc tr => max acc (worstInRowAux tbl.grid fontPt tr.cells 0)) 0

/-- setCellFontSize models _set_cell_font_size: set sz on every run of the
first txBody that has run properties. -/
def setCellFontSize (tc : Cell) (szv : Int) : Cell :=
  match tc.bodies with
  | [] => tc
  | b :: rest =>
    { tc with
        bodies :=
          (b.map (fun p =>
            p.map (fun r =>
              match r.rPr with
              | some pr => { r with rPr := some { pr with sz := some szv } }
              | none => r))) :: rest }

/-- usablePtOf is the usable text height of one data row in points. -/
def usablePtOf (drh : Int) : Frac := subF ⟨drh * 72, 914400⟩ (ofIntF 12)

/-- neededPtOf is the required text height in points at the base size. -/
def neededPtOf (baseSz : Int) (worst : Nat) : Frac :=
  mulF (ofIntF worst) (mulF ⟨baseSz, 100⟩ ⟨13, 10⟩)

/-- newSzOf is the scaled-down size floored at 8.5 pt (850 hundredths). -/
def newSzOf (baseSz : Int) (worst : Nat) (drh : Int) : Int :=
  max (truncF (mulF (ofIntF baseSz) (divF (usablePtOf drh) (neededPtOf baseSz worst)))) 850

/-- autoFitCellFont models _auto_fit_cell_font on the table of the found
table shape. -/
def autoFitCellFont (tbl : Table) (drh : Int) : Table :=
  if tbl.rows.length < 2 then tbl
  else
    let baseSz := baseSzOf tbl
    let worst := worstLinesOf tbl ⟨baseSz, 100⟩
    if worst = 0 then tbl
    else if bleF (neededPtOf baseSz worst) (usablePtOf drh) then tbl
    else
      let newSz := newSzOf baseSz worst drh
      { tbl with
          rows :=
            match tbl.rows with
            | [] => tbl.rows
            | hrow :: drows =>
              hrow ::
                drows.map (fun tr =>
                  { tr with
                      cells :=
                        tr.cells.mapIdx
                          (fun ci tc =>
                            if ci = 2 ∨ ci = 3 then setCellFontSize tc newSz else tc) }) }

/-- RErr enumerates the distinct injector errors: the three documented
ValueError conditions plus the index and lookup errors Python would raise on
the remaining edge shapes. -/
inductive RErr where
  | slideIdx
  | noTable (i : Nat)
  | rowsIdx
  | noDataRow
  | noPicture (i : Nat)
  | noBlip (nm : Str)
  | relMissing
deriving DecidableEq

/-- renderRErr is the message text carried by each raised error. -/
def renderRErr : RErr → Str
  | .slideIdx => strC "list index out of range"
  | .noTable i => strC "슬라이드 " ++ natToStr i ++ strC "에 테이블이 없습니다"
  | .rowsIdx => strC "list index out of range"
  | .noDataRow => strC "테이블에 데이터 행이 없어 서식 템플릿을 생성할 수 없습니다"
  | .noPicture i => strC "슬라이드 " ++ natToStr i ++ strC "에 PICTURE shape가 없습니다"
  | .noBlip nm => strC "shape '" ++ (nm ++ strC "'에 blip 요소가 없습니다")
  | .relMissing => strC "KeyError"

/-- injectTable models PptxFileReplacer.inject_table end to end: locate the
first table, take row zero as the immutable header, require a first data row
as the Row Template, replace the data rows by one clone per record, then run
the row-height and font auto-fit passes. -/
def injectTable (prs : Prs) (idx : Nat) (rows : List TopicRow) : Except RErr Prs :=
  match prs.slides[idx]? with
  | none => .error .slideIdx
  | some sl =>
    match findTable sl with
    | none => .error (.noTable idx)
    | some tbl =>
      match tbl.rows with
      | [] => .error .rowsIdx
      | headerRow :: dataRows =>
        match dataRows with
        | [] => .error .noDataRow
        | template :: _ =>
          let newRows := headerRow :: rows.map (injectRow template)
          let sl1 :=
            { sl with
                shapes := updFirstTable (fun t => { t with rows := newRows }) sl.shapes }
          let fit := autoFitRows prs sl1 rows.length
          match fit.2 with
          | none => .ok { prs with slides := prs.slides.set idx fit.1 }
          | some drh =>
            if drh = 0 then .ok { prs with slides := prs.slides.set idx fit.1 }
            else
              let sl3 :=
                { fit.1 with
                    shapes := updFirstTable (fun t => autoFitCellFont t drh) fit.1.shapes }
              .ok { prs with slides := prs.slides.set idx sl3 }

/-- selectPicAux is the largest-picture scan of replace_slide_image: best
shape and best area so far, strict improvement only. -/
def selectPicAux : List Shape → Option Shape → Int → Option Shape × Int
  | [], b, a => (b, a)
  | sh :: t, b, a =>
    if sh.shapeType = 13 ∧ sh.width * sh.height > a then
      selectPicAux t (some sh) (sh.width * sh.height)
    else selectPicAux t b a

/-- selectPic returns the picture shape the scan selects, starting from no
shape and area zero. -/
def selectPic (shapes : List Shape) : Option Shape := (selectPicAux shapes none 0).1

/-- replaceSlideImage models PptxFileReplacer.replace_slide_image: select
the largest picture, follow its first blip's relationship and overwrite the
image part's blob. -/
def replaceSlideImage (prs : Prs) (idx : Nat) (img : Bytes) : Except RErr Prs :=
  match prs.slides[idx]? with
  | none => .error .slideIdx
  | some sl =>
    match selectPic sl.shapes with
    | none => .error (.noPicture idx)
    | some sh =>
      match sh.blips with
      | [] => .error (.noBlip sh.name)
      | rId :: _ =>
        match lookupA sl.imageParts rId with
        | none => .error .relMissing
        | some _ =>
          .ok
            { prs with
                slides :=
                  prs.slides.set idx { sl with imageParts := setKV sl.imageParts rId img } }

/-! ### Orchestrator model (pipeline/pipeline.py run loop)

Each page job carries the outcome its processing call would produce (a path,
no path for a dynamic page without an export URL, or a raised message); the
loop collects paths and error strings and never stops early. -/

/-- PageJob is one ordered page with the outcome of processing it. -/
structure PageJob where
  name : Str
  outcome : Except Str (Option Str)

/-- pageErrMsg is the collected per-page failure string. -/
def pageErrMsg (name e : Str) : Str := '[' :: (name ++ (strC "] 처리 실패: " ++ e))

/-- runPages is the page loop of DefaultProposalPipeline.run: catch each
page's failure, record it, continue with the remaining pages. -/
def runPages (pages : List PageJob) : List Str × List Str :=
  pages.foldl
    (fun acc p =>
      match p.outcome with
      | .ok (some path) => (acc.1 ++ [path], acc.2)
      | .ok none => acc
      | .error e => (acc.1, acc.2 ++ [pageErrMsg p.name e]))
    ([], [])

/-- pagePaths is the specification of the collected outputs. -/
def pagePaths (pages : List PageJob) : List Str :=
  pages.filterMap
    (fun p =>
      match p.outcome with
      | .ok op => op
      | .error _ => none)

/-- pageErrs is the specification of the collected error strings. -/
def pageErrs (pages : List PageJob) : List Str :=
  pages.filterMap
    (fun p =>
      match p.outcome with
      | .ok _ => none
      | .error e => some (pageErrMsg p.name e))

/-- natMaxFold is the running maximum used by maxD and by the rId scan. -/
def natMaxFold (l : List Nat) : Nat := l.foldl max 0

/-! ### Container validity and its preservation by the merge -/

/-- CWF is structural validity of an unpacked container: within each numbered
family the suffixes are distinct (they are file names) and at least one (the
convention of the format the merger relies on), and every manifest slide
entry resolves into the presentation relationship file. -/
structure CWF (c : Container) : Prop where
  sldNodup : (keysA c.slides).Nodup
  layNodup : (keysA c.layouts).Nodup
  mstNodup : (keysA c.masters).Nodup
  thmNodup : (keysA c.themes).Nodup
  sldPos : ∀ n ∈ keysA c.slides, 1 ≤ n
  layPos : ∀ n ∈ keysA c.layouts, 1 ≤ n
  mstPos : ∀ n ∈ keysA c.masters, 1 ≤ n
  thmPos : ∀ n ∈ keysA c.themes, 1 ≤ n
  sldResolve : ∀ e ∈ c.pres.sldIds, ∃ r ∈ c.presRels, r.id = e.2

/-- shiftedDisplays gives each appended source's displayed slides under the
cumulative renumbering offsets of the fold. -/
def shiftedDisplays (m : Nat) : List Container → List (List Nat)
  | [] => []
  | s :: rest => (displayOrder s).map (· + m) :: shiftedDisplays (m + maxKey s.slides) rest

/-! ### Concrete scenario containers -/

/-- imageRelTypeStr is the relationship Type URL of an embedded image. -/
def imageRelTypeStr : Str :=
  strC "http://schemas.openxmlformats.org/officeDocument/2006/relationships/image"

/-- cexA is a minimal valid container with one slide displayed as [1]. -/
def cexA : Container :=
  { slides := [(1, [0])]
    slideRels := []
    layouts := []
    layoutRels := []
    masters := []
    masterRels := []
    themes := []
    media := []
    pres := { sldIds := [(256, 1)], mstIds := [], cx := 0, cy := 0 }
    presRels := [⟨1, slideRelTypeStr, slideTarget 1⟩]
    ctDefaults := []
    ctOverrides := [] }

/-- cexB is a valid container with slide parts 1 and 2 whose manifest
displays them in the order [2, 1]. -/
def cexB : Container :=
  { slides := [(1, [1]), (2, [2])]
    slideRels := []
    layouts := []
    layoutRels := []
    masters := []
    masterRels := []
    themes := []
    media := []
    pres := { sldIds := [(256, 2), (257, 1)], mstIds := [], cx := 0, cy := 0 }
    presRels := [⟨1, slideRelTypeStr, slideTarget 1⟩, ⟨2, slideRelTypeStr, slideTarget 2⟩]
    ctDefaults := []
    ctOverrides := [] }

/-- cexC is cexB with the common ascending display order [1, 2]. -/
def cexC : Container :=
  { slides := [(1, [1]), (2, [2])]
    slideRels := []
    layouts := []
    layoutRels := []
    masters := []
    masterRels := []
    themes := []
    media := []
    pres := { sldIds := [(256, 1), (257, 2)], mstIds := [], cx := 0, cy := 0 }
    presRels := [⟨1, slideRelTypeStr, slideTarget 1⟩, ⟨2, slideRelTypeStr, slideTarget 2⟩]
    ctDefaults := []
    ctOverrides := [] }

/-- c3A is a one-slide container with media file pic.png holding the bytes
X, referenced from its slide relationship file. -/
def c3A (X : Bytes) : Container :=
  { slides := [(1, [0])]
    slideRels := [(1, [⟨2, imageRelTypeStr, strC "../media/pic.png"⟩])]
    layouts := []
    layoutRels := []
    masters := []
    masterRels := []
    themes := []
    media := [(strC "pic.png", X)]
    pres := { sldIds := [(256, 1)], mstIds := [], cx := 0, cy := 0 }
    presRels := [⟨1, slideRelTypeStr, slideTarget 1⟩]
    ctDefaults := []
    ctOverrides := [] }

/-- c3B is the same scenario container holding the bytes Y. -/
def c3B (Y : Bytes) : Container :=
  { slides := [(1, [1])]
    slideRels := [(1, [⟨2, imageRelTypeStr, strC "../media/pic.png"⟩])]
    layouts := []
    layoutRels := []
    masters := []
    masterRels := []
    themes := []
    media := [(strC "pic.png", Y)]
    pres := { sldIds := [(256, 1)], mstIds := [], cx := 0, cy := 0 }
    presRels := [⟨1, slideRelTypeStr, slideTarget 1⟩]
    ctDefaults := []
    ctOverrides := [] }

/-- resolveMedia follows a media relationship target of the ../media/NAME
form into the merged media directory. -/
def resolveMedia (c : Container) (t : Str) : Option Bytes :=
  if pfxOf (strC "../media/") t then lookupA c.media (t.drop (strC "../media/").length)
  else none

/-- cellParas lists the paragraphs of a cell's text frame. -/
def cellParas (c : Cell) : List XPara :=
  match c.bodies with
  | [] => []
  | b :: _ => b

/-- shapeParas lists the paragraphs the substitution pass of _replace_slide
visits on one shape: its text frame then its table cells. -/
def shapeParas (sh : Shape) : List XPara :=
  (match sh.textFrame with
    | some tf => tf
    | none => []) ++
    (match sh.table with
      | some t => ((t.rows.map (fun r => (r.cells.map cellParas).flatten)).flatten)
      | none => [])

/-- allParas lists every paragraph the substitution pass visits. -/
def allParas (prs : Prs) : List XPara :=
  ((prs.slides.map (fun sl => (sl.shapes.map shapeParas).flatten)).flatten)

/-- cex4s is a one-run paragraph whose text is four braces around a key. -/
def cex4s : XPara := [⟨none, some (strC "{{{{k}}}}")⟩]

/-- cex4v is a one-run paragraph referencing key b. -/
def cex4v : XPara := [⟨none, some (strC "hi {{b}}")⟩]

/-- cex4prs is a one-slide container with a single paragraph in one shape
whose Korean placeholder token {{고객명}} is split across the two runs, as
authoring tools produce. -/
def cex4prs : Prs :=
  { slideHeight := 6858000,
    slides :=
      [{ shapes :=
          [{ shapeType := 1, width := 0, height := 0, top := 0,
             textFrame := some [[⟨none, some (strC "안녕 \x7b\x7b고객")⟩,
                                 ⟨none, some (strC "명\x7d\x7d 귀중")⟩]],
             table := none, blips := [], name := strC "s" }],
         imageParts := [] }] }

/-- w5tbl is a two-row table: a header row and one data row. -/
def w5tbl : Table := ⟨[], [⟨none, []⟩, ⟨none, []⟩]⟩

/-- w5sl is a slide carrying only the w5tbl table shape. -/
def w5sl : Slide := ⟨[⟨0, 0, 0, 0, none, some w5tbl, [], []⟩], []⟩

/-- w5prs is a presentation with the single slide w5sl. -/
def w5prs : Prs := ⟨6858000, [w5sl]⟩

/-- w5topic is one curriculum record. -/
def w5topic : TopicRow := ⟨strC "s", strC "h", strC "c", strC "e"⟩

/-- w10tmpl is a template row with only two cells, fewer than the four
record fields. -/
def w10tmpl : Row := ⟨none, [⟨[]⟩, ⟨[]⟩]⟩

/-- w10tbl is a header row plus the short template row. -/
def w10tbl : Table := ⟨[], [⟨none, []⟩, w10tmpl]⟩

/-- w10sl is a slide carrying only the w10tbl table shape. -/
def w10sl : Slide := ⟨[⟨0, 0, 0, 0, none, some w10tbl, [], []⟩], []⟩

/-- w10prs is a presentation with the single slide w10sl. -/
def w10prs : Prs := ⟨6858000, [w10sl]⟩

/-- w10topic is one curriculum record. -/
def w10topic : TopicRow := ⟨strC "a", strC "b", strC "c", strC "d"⟩

/-- w7tbl is a small two-row, one-column table for the auto-fit witness. -/
def w7tbl : Table := ⟨[914400], [⟨none, [⟨[]⟩]⟩, ⟨none, [⟨[]⟩]⟩]⟩

/-- w9sl is a slide with one zero-area picture shape. -/
def w9sl : Slide := ⟨[⟨13, 0, 5, 0, none, none, [7], strC "p"⟩], [(7, [0])]⟩

/-- w9prs is a presentation with the single slide w9sl. -/
def w9prs : Prs := ⟨6858000, [w9sl]⟩

@[simp] theorem replaceL_nil (pat val : Str) : replaceL [] pat val = [] := rfl

theorem replaceLAux_nil (f : Nat) (pat val : Str) : replaceLAux f [] pat val = [] := by
  cases f <;> rfl

theorem replaceLAux_irrel (pat val : Str) :
    ∀ (f1 : Nat) (s : Str) (f2 : Nat), s.length ≤ f1 → s.length ≤ f2 →
      replaceLAux f1 s pat val = replaceLAux f2 s pat val := by
  intro f1
  induction f1 with
  | zero =>
    intro s f2 h1 _
    have : s = [] := List.length_eq_zero.mp (Nat.le_zero.mp h1)
    subst this
    rw [replaceLAux_nil, replaceLAux_nil]
  | succ f ih =>
    intro s f2 h1 h2
    cases s with
    | nil => rw [replaceLAux_nil, replaceLAux_nil]
    | cons c t =>
      cases f2 with
      | zero => simp at h2
      | succ g =>
        rw [replaceLAux, replaceLAux]
        by_cases hc : pat ≠ [] ∧ pfxOf pat (c :: t) = true
        · rw [if_pos hc, if_pos hc]
          congr 1
          have hplen : 0 < pat.length := by
            cases pat with
            | nil => exact absurd rfl hc.1
            | cons a b => simp
          have hdlen : ((c :: t).drop pat.length).length ≤ f := by
            rw [List.length_drop]
            simp only [List.length_cons] at h1 ⊢
            omega
          have hdlen2 : ((c :: t).drop pat.length).length ≤ g := by
            rw [List.length_drop]
            simp only [List.length_cons] at h2 ⊢
            omega
          exact ih _ g hdlen hdlen2
        · rw [if_neg hc, if_neg hc]
          congr 1
          simp only [List.length_cons] at h1 h2
          exact ih t g (by omega) (by omega)

theorem pfxOf_nil (s : Str) : pfxOf [] s = true := by cases s <;> simp [pfxOf]

theorem pfxOf_append (p s : Str) : pfxOf p (p ++ s) = true := by
  induction p with
  | nil => simp [pfxOf_nil]
  | cons c t ih => simp [pfxOf, ih]

theorem pfxOf_length_le {p s : Str} (h : pfxOf p s = true) : p.length ≤ s.length := by
  induction p generalizing s with
  | nil => simp
  | cons c t ih =>
    cases s with
    | nil => simp [pfxOf] at h
    | cons d u =>
      simp only [pfxOf, Bool.and_eq_true] at h
      simpa [Nat.succ_le_succ_iff] using ih h.2

theorem pfxOf_iff {p s : Str} : pfxOf p s = true ↔ ∃ t, s = p ++ t := by
  constructor
  · intro h
    induction p generalizing s with
    | nil => exact ⟨s, rfl⟩
    | cons c t ih =>
      cases s with
      | nil => simp [pfxOf] at h
      | cons d u =>
        simp only [pfxOf, Bool.and_eq_true, decide_eq_true_eq] at h
        obtain ⟨r, hr⟩ := ih h.2
        exact ⟨r, by simp [h.1, hr]⟩
  · rintro ⟨t, rfl⟩
    exact pfxOf_append p t

/-- A step of replaceL when the pattern does match at the head. -/
theorem replaceL_head_match (pat : Str) (hpat : pat ≠ []) (rest val : Str) :
    replaceL (pat ++ rest) pat val = val ++ replaceL rest pat val := by
  cases pat with
  | nil => exact absurd rfl hpat
  | cons a b =>
    show replaceLAux ((b ++ rest).length + 1) (a :: (b ++ rest)) (a :: b) val =
      val ++ replaceL rest (a :: b) val
    rw [replaceLAux, if_pos]
    · have hdrop : (a :: (b ++ rest)).drop (a :: b).length = rest := by
        rw [show a :: (b ++ rest) = (a :: b) ++ rest from rfl]
        exact List.drop_left _ _
      rw [hdrop]
      congr 1
      exact replaceLAux_irrel (a :: b) val _ rest _ (by simp) le_rfl
    · refine ⟨hpat, ?_⟩
      rw [show a :: (b ++ rest) = (a :: b) ++ rest from rfl]
      exact pfxOf_append (a :: b) rest

/-- A step of replaceL when the pattern does not match at the head. -/
theorem replaceL_head_nomatch (c : Char) (t pat val : Str)
    (h : pfxOf pat (c :: t) = false) :
    replaceL (c :: t) pat val = c :: replaceL t pat val := by
  show replaceLAux (t.length + 1) (c :: t) pat val = c :: replaceL t pat val
  rw [replaceLAux, if_neg]
  · rfl
  · rintro ⟨-, hm⟩
    rw [h] at hm
    exact Bool.false_ne_true hm

theorem digitChar_toNat {d : Nat} (h : d < 10) : (digitChar d).toNat = 48 + d := by
  interval_cases d <;> decide

theorem natToStrAux_acc (fuel n : Nat) (acc : Str) :
    natToStrAux fuel n acc = natToStrAux fuel n [] ++ acc := by
  induction fuel generalizing n acc with
  | zero => simp [natToStrAux]
  | succ fuel ih =>
    by_cases h : n < 10
    · simp [natToStrAux, h]
    · rw [natToStrAux, if_neg h, natToStrAux, if_neg h, ih (n / 10),
        ih (n / 10) [digitChar (n % 10)]]
      simp

theorem natToStrAux_ne_nil (fuel n : Nat) (h : 0 < fuel) :
    natToStrAux fuel n [] ≠ [] := by
  cases fuel with
  | zero => omega
  | succ fuel =>
    by_cases h10 : n < 10
    · simp [natToStrAux, h10]
    · rw [natToStrAux, if_neg h10, natToStrAux_acc]
      simp

theorem natToStrAux_digits (fuel n : Nat) :
    (natToStrAux fuel n []).all isDigitC = true := by
  induction fuel generalizing n with
  | zero => simp [natToStrAux]
  | succ fuel ih =>
    by_cases h : n < 10
    · have hm : n % 10 < 10 := Nat.mod_lt _ (by omega)
      simp only [natToStrAux, if_pos h, List.all_cons, List.all_nil, Bool.and_true]
      simp [isDigitC, digitChar_toNat hm]
      omega
    · rw [natToStrAux, if_neg h, natToStrAux_acc]
      have hm : n % 10 < 10 := Nat.mod_lt _ (by omega)
      simp only [List.all_append, ih (n / 10), Bool.true_and, List.all_cons,
        List.all_nil, Bool.and_true]
      simp [isDigitC, digitChar_toNat hm]
      omega

theorem natToStrAux_foldl (fuel n a : Nat) (h : n < fuel) :
    (natToStrAux fuel n []).foldl (fun a c => a * 10 + (c.toNat - 48)) a =
      a * 10 ^ (natToStrAux fuel n []).length + n := by
  induction fuel generalizing n a with
  | zero => omega
  | succ fuel ih =>
    by_cases h10 : n < 10
    · have hm : n % 10 = n := Nat.mod_eq_of_lt h10
      have hc : (digitChar n).toNat = 48 + n := digitChar_toNat h10
      simp [natToStrAux, h10, hm, hc]
    · rw [natToStrAux, if_neg h10, natToStrAux_acc]
      have hdivlt : n / 10 < fuel := by
        have h1 : n / 10 < n := Nat.div_lt_self (by omega) (by omega)
        omega
      have hc : (digitChar (n % 10)).toNat = 48 + n % 10 :=
        digitChar_toNat (Nat.mod_lt _ (by omega))
      rw [List.foldl_append]
      simp only [List.length_append, List.length_cons, List.length_nil]
      rw [ih (n / 10) a hdivlt]
      simp only [List.foldl_cons, List.foldl_nil, hc]
      have : 48 + n % 10 - 48 = n % 10 := by omega
      rw [this, pow_succ]
      have hnm : n % 10 + 10 * (n / 10) = n := Nat.mod_add_div n 10
      ring_nf
      omega

/-- Parsing undoes printing: the decimal round trip used by every renumbering
step of the merger. -/
theorem parseNat_natToStr (n : Nat) : parseNat? (natToStr n) = some n := by
  rw [parseNat?, if_pos]
  · rw [natToStr, natToStrAux_foldl (n + 1) n 0 (Nat.lt_succ_self n)]
    simp
  · exact ⟨natToStrAux_ne_nil (n + 1) n (Nat.succ_pos n), natToStrAux_digits (n + 1) n⟩

theorem takeWhile_word_append {k : Str} (hk : k.all isWordChar = true) (r : Str)
    (hr : ∀ c t, r = c :: t → isWordChar c = false) :
    (k ++ r).takeWhile isWordChar = k ∧ (k ++ r).dropWhile isWordChar = r := by
  induction k with
  | nil =>
    cases r with
    | nil => simp
    | cons c t => simp [List.takeWhile, List.dropWhile, hr c t rfl]
  | cons a w ih =>
    simp only [List.all_cons, Bool.and_eq_true] at hk
    have := ih hk.2
    simp [List.takeWhile, List.dropWhile, hk.1, this.1, this.2]

theorem tokenAt_tokPat {k : Str} (hk : k ≠ []) (hw : k.all isWordChar = true)
    (r : Str) : tokenAt (tokPat k ++ r) = some (k, r) := by
  have hnw : ∀ c t, ('}' :: '}' :: r) = c :: t → isWordChar c = false := by
    intro c t h
    cases h
    decide
  have htw := takeWhile_word_append hw ('}' :: '}' :: r) hnw
  cases k with
  | nil => exact absurd rfl hk
  | cons a w =>
    simp only [tokPat, List.cons_append, List.append_assoc]
    rw [tokenAt]
    simp only [List.cons_append] at htw
    simp [htw.1, htw.2]

theorem tokenAt_some_shape {s k r : Str} (h : tokenAt s = some (k, r)) :
    s = tokPat k ++ r ∧ k ≠ [] ∧ k.all isWordChar = true := by
  match s with
  | [] => simp [tokenAt] at h
  | [c1] => simp [tokenAt] at h
  | c1 :: c2 :: t =>
    rw [tokenAt] at h
    split at h
    case isTrue hb =>
      split at h
      case isTrue hke => exact absurd h (by simp)
      case isFalse hke =>
        split at h
        case h_1 d1 d2 r2 hr =>
          split at h
          case isTrue hd =>
            have hk : k = t.takeWhile isWordChar ∧ r = r2 := by
              have := Option.some.inj h
              exact ⟨congrArg Prod.fst this |>.symm, congrArg Prod.snd this |>.symm⟩
            refine ⟨?_, ?_, ?_⟩
            · rw [tokPat, hb.1, hb.2, hk.1, hk.2]
              simp only [List.cons_append]
              congr 2
              rw [List.append_assoc]
              simp only [List.cons_append, List.nil_append]
              rw [hd.1, hd.2] at hr
              rw [← hr]
              exact (List.takeWhile_append_dropWhile isWordChar t).symm
            · rw [hk.1]; exact hke
            · rw [hk.1]; exact List.all_takeWhile
          case isFalse hd => exact absurd h (by simp)
        case h_2 => exact absurd h (by simp)
    case isFalse hb => exact absurd h (by simp)

/-- hasToken holds exactly when the string decomposes around a well-formed
token; this is the substring characterisation of the regex search. -/
theorem hasToken_iff {s : Str} :
    hasToken s = true ↔
      ∃ a k b, s = a ++ tokPat k ++ b ∧ k ≠ [] ∧ k.all isWordChar = true := by
  induction s with
  | nil =>
    simp only [hasToken]
    constructor
    · intro h; exact absurd h (by simp)
    · rintro ⟨a, k, b, hs, hk, -⟩
      exfalso
      have : ([] : Str).length = (a ++ tokPat k ++ b).length := by rw [hs]
      simp [tokPat] at this
      omega
  | cons c t ih =>
    rw [hasToken, Bool.or_eq_true]
    constructor
    · rintro (h | h)
      · obtain ⟨⟨k, r⟩, hkr⟩ := Option.isSome_iff_exists.mp h
        obtain ⟨hs, hk, hw⟩ := tokenAt_some_shape hkr
        exact ⟨[], k, r, by simpa using hs, hk, hw⟩
      · obtain ⟨a, k, b, hs, hk, hw⟩ := ih.mp h
        exact ⟨c :: a, k, b, by simp [hs], hk, hw⟩
    · rintro ⟨a, k, b, hs, hk, hw⟩
      cases a with
      | nil =>
        left
        have : c :: t = tokPat k ++ b := by simpa using hs
        rw [this, tokenAt_tokPat hk hw b]
        simp
      | cons a0 a1 =>
        right
        exact ih.mpr ⟨a1, k, b, by simpa using congrArg List.tail hs, hk, hw⟩

/-- A string with no opening brace has no token. -/
theorem hasToken_eq_false_of_no_brace {s : Str} (h : '{' ∉ s) :
    hasToken s = false := by
  rw [← Bool.not_eq_true, hasToken_iff]
  rintro ⟨a, k, b, hs, -, -⟩
  apply h
  rw [hs, tokPat]
  simp

theorem tokenAt_rest_length {s k r : Str} (h : tokenAt s = some (k, r)) :
    r.length < s.length := by
  obtain ⟨hs, -, -⟩ := tokenAt_some_shape h
  rw [hs, tokPat]
  simp
  omega

/-- A token in a string is monotone under taking larger strings: any infix
with a token gives the enclosing string a token. -/
theorem hasToken_of_substring {s t : Str} (h : s <:+: t) (hs : hasToken s = true) :
    hasToken t = true := by
  obtain ⟨pre, post, rfl⟩ := h
  obtain ⟨a, k, b, rfl, hk, hw⟩ := hasToken_iff.mp hs
  exact hasToken_iff.mpr ⟨pre ++ a, k, b ++ post, by simp, hk, hw⟩

theorem word_ne_braces {c : Char} (h : isWordChar c = true) : c ≠ '{' ∧ c ≠ '}' := by
  constructor <;> rintro rfl <;> exact absurd h (by decide)

/-- Replacement slides over a prefix containing no opening brace whenever the
pattern starts with an opening brace. -/
theorem replaceL_no_open_append {a : Str} (ha : '{' ∉ a) {p' : Str}
    (t val : Str) :
    replaceL (a ++ t) ('{' :: p') val = a ++ replaceL t ('{' :: p') val := by
  induction a with
  | nil => simp
  | cons c a ih =>
    have hc : c ≠ '{' := fun hc => ha (by simp [hc])
    have hpf : pfxOf ('{' :: p') (c :: (a ++ t)) = false := by
      simp [pfxOf]
      intro h
      exact absurd h.symm hc
    rw [List.cons_append, replaceL_head_nomatch _ _ _ _ hpf,
      ih (fun hm => ha (by simp [hm]))]
    simp

/-- Distinct word keys never let one token pattern match inside another token
text: the key-plus-closing-braces comparison always fails. -/
theorem key_pfx_false {k k2 : Str} (hw : k.all isWordChar = true)
    (hw2 : k2.all isWordChar = true) (hne : k ≠ k2) (xs ys : Str) :
    pfxOf (k ++ '}' :: '}' :: xs) (k2 ++ '}' :: '}' :: ys) = false := by
  induction k generalizing k2 with
  | nil =>
    cases k2 with
    | nil => exact absurd rfl hne
    | cons b k2t =>
      simp only [List.all_cons, Bool.and_eq_true] at hw2
      have := word_ne_braces hw2.1
      simp [pfxOf]
      intro h
      exact absurd h.symm this.2
  | cons a kt ih =>
    cases k2 with
    | nil =>
      simp only [List.all_cons, Bool.and_eq_true] at hw
      have := word_ne_braces hw.1
      simp [pfxOf]
      intro h
      exact absurd h this.2
    | cons b k2t =>
      simp only [List.all_cons, Bool.and_eq_true] at hw hw2
      by_cases hab : a = b
      · subst hab
        have hnet : kt ≠ k2t := fun h => hne (by rw [h])
        simp [pfxOf, ih hw.2 hw2.2 hnet]
      · simp [pfxOf]
        intro h
        exact absurd h hab

theorem pfxOf_cons_self (c : Char) (p s : Str) :
    pfxOf (c :: p) (c :: s) = pfxOf p s := by
  simp [pfxOf]

theorem pfxOf_cons_ne {c d : Char} (h : c ≠ d) (p s : Str) :
    pfxOf (c :: p) (d :: s) = false := by
  simp [pfxOf, h]

/-- Replacement of a token pattern slides over a prefix with no opening
brace (wrapper of replaceL_no_open_append at a token pattern). -/
theorem replaceL_tok_no_open_append {a : Str} (ha : '{' ∉ a) (k t val : Str) :
    replaceL (a ++ t) (tokPat k) val = a ++ replaceL t (tokPat k) val := by
  simp only [tokPat]
  exact replaceL_no_open_append ha t val

/-- Replacement of one token pattern slides over a different token. -/
theorem replaceL_tok_ne {k k2 : Str} (hk : goodKey k = true)
    (hk2 : goodKey k2 = true) (hne : k2 ≠ k) (r val : Str) :
    replaceL (tokPat k2 ++ r) (tokPat k) val =
      tokPat k2 ++ replaceL r (tokPat k) val := by
  simp only [goodKey, Bool.and_eq_true, decide_eq_true_eq] at hk hk2
  obtain ⟨hkne, hkw⟩ := hk
  obtain ⟨hk2ne, hk2w⟩ := hk2
  obtain ⟨b, k2t, rfl⟩ : ∃ b k2t, k2 = b :: k2t := by
    cases k2 with
    | nil => exact absurd rfl hk2ne
    | cons b k2t => exact ⟨b, k2t, rfl⟩
  simp only [List.all_cons, Bool.and_eq_true] at hk2w
  have hshape : tokPat (b :: k2t) ++ r =
      '{' :: '{' :: ((b :: k2t) ++ '}' :: '}' :: r) := by
    simp [tokPat]
  -- position 0: the patterns diverge inside the key-and-closing-braces part
  have h0 : pfxOf (tokPat k) ('{' :: '{' :: ((b :: k2t) ++ '}' :: '}' :: r)) =
      false := by
    simp only [tokPat]
    rw [pfxOf_cons_self, pfxOf_cons_self]
    exact key_pfx_false hkw (by simp [hk2w.1, hk2w.2]) (fun h => hne h.symm) [] r
  -- position 1: the second pattern character is an opening brace, the text
  -- has the first key character, a word character
  have h1 : pfxOf (tokPat k) ('{' :: ((b :: k2t) ++ '}' :: '}' :: r)) = false := by
    simp only [tokPat, List.cons_append]
    rw [pfxOf_cons_self]
    exact pfxOf_cons_ne (fun h => (word_ne_braces hk2w.1).1 h.symm) _ _
  -- the rest of the token text contains no opening brace
  have hno : '{' ∉ (b :: k2t) ++ '}' :: '}' :: [] := by
    intro hm
    simp at hm
    rcases hm with hm | hm
    · exact (word_ne_braces hk2w.1).1 hm.symm
    · exact (word_ne_braces (List.all_eq_true.mp hk2w.2 _ hm)).1 rfl
  have hassoc : (b :: k2t) ++ '}' :: '}' :: r =
      ((b :: k2t) ++ '}' :: '}' :: []) ++ r := by simp
  rw [hshape, replaceL_head_nomatch _ _ _ _ h0, replaceL_head_nomatch _ _ _ _ h1,
    hassoc, replaceL_tok_no_open_append hno]
  simp [tokPat]

/-- One replacement pass over a rendered chunk list acts chunk by chunk. -/
theorem replaceL_render {cs : List Chunk} (hWF : chunksWF cs = true)
    {k : Str} (hk : goodKey k = true) (v : Str) :
    replaceL (render cs) (tokPat k) v = render (cs.map (replaceTok k v)) := by
  induction cs with
  | nil => simp [render]
  | cons c rest ih =>
    simp only [chunksWF, List.all_cons, Bool.and_eq_true] at hWF
    have ih2 := ih (by simp [chunksWF, hWF.2])
    cases c with
    | seg s =>
      have hs : '{' ∉ s := by
        intro hm
        have := List.all_eq_true.mp hWF.1 _ hm
        simp at this
      have : render (Chunk.seg s :: rest) = s ++ render rest := by
        simp [render, renderChunk]
      rw [this, replaceL_tok_no_open_append hs, ih2]
      simp [render, renderChunk, replaceTok]
    | tok k2 =>
      have : render (Chunk.tok k2 :: rest) = tokPat k2 ++ render rest := by
        simp [render, renderChunk]
      rw [this]
      by_cases hkk : k2 = k
      · subst hkk
        rw [replaceL_head_match (tokPat k2) (by simp [tokPat]) (render rest) v, ih2]
        simp [render, renderChunk, replaceTok]
      · rw [replaceL_tok_ne hk hWF.1 hkk (render rest) v, ih2]
        simp [render, renderChunk, replaceTok, hkk]

theorem chunksWF_map_replaceTok {cs : List Chunk} (hWF : chunksWF cs = true)
    {k v : Str} (hv : braceFree v = true) :
    chunksWF (cs.map (replaceTok k v)) = true := by
  simp only [chunksWF, List.all_eq_true] at hWF ⊢
  intro c hc
  simp only [List.mem_map] at hc
  obtain ⟨c0, hc0, rfl⟩ := hc
  have := hWF c0 hc0
  cases c0 with
  | seg s => simpa [replaceTok] using this
  | tok k2 =>
    by_cases hkk : k2 = k
    · simpa [replaceTok, hkk] using hv
    · simpa [replaceTok, hkk] using this

/-- The full replacement fold over a rendered chunk list acts chunk by
chunk. -/
theorem substFull_render {vars : List (Str × Str)} {cs : List Chunk}
    (hWF : chunksWF cs = true) (hv : varsWF vars = true) :
    substFull vars (render cs) = render (applyVars vars cs) := by
  induction vars generalizing cs with
  | nil => simp [substFull, applyVars]
  | cons kv rest ih =>
    simp only [varsWF, List.all_cons, Bool.and_eq_true] at hv
    have h1 := replaceL_render hWF (k := kv.1) (by exact hv.1.1) kv.2
    have hWF2 := chunksWF_map_replaceTok hWF (k := kv.1) hv.1.2
    simp only [substFull, List.foldl_cons] at *
    rw [h1]
    exact ih hWF2 (by simp [varsWF, hv.2])

/-- Token keys surviving the fold are exactly original keys not in the
variable map. -/
theorem applyVars_tok_mem {vars : List (Str × Str)} {cs : List Chunk} {k : Str}
    (h : Chunk.tok k ∈ applyVars vars cs) :
    Chunk.tok k ∈ cs ∧ k ∉ vars.map Prod.fst := by
  induction vars generalizing cs with
  | nil => simpa [applyVars] using h
  | cons kv rest ih =>
    simp only [applyVars, List.foldl_cons] at h
    have := ih (by simpa [applyVars] using h)
    obtain ⟨hmem, hnot⟩ := this
    simp only [List.mem_map] at hmem
    obtain ⟨c0, hc0, hc0eq⟩ := hmem
    cases c0 with
    | seg s => simp [replaceTok] at hc0eq
    | tok k2 =>
      by_cases hkk : k2 = kv.1
      · simp [replaceTok, hkk] at hc0eq
      · simp only [replaceTok, if_neg hkk] at hc0eq
        have hk2 : k2 = k := by
          have := hc0eq
          injection this
        subst hk2
        constructor
        · exact hc0
        · simp only [List.map_cons, List.mem_cons]
          rintro (rfl | hm)
          · exact hkk rfl
          · exact hnot hm

/-- A token with an uncovered key survives the fold. -/
theorem applyVars_tok_surv {vars : List (Str × Str)} {cs : List Chunk} {k : Str}
    (hmem : Chunk.tok k ∈ cs) (hout : k ∉ vars.map Prod.fst) :
    Chunk.tok k ∈ applyVars vars cs := by
  induction vars generalizing cs with
  | nil => simpa [applyVars] using hmem
  | cons kv rest ih =>
    simp only [List.map_cons, List.mem_cons, not_or] at hout
    simp only [applyVars, List.foldl_cons]
    have : Chunk.tok k ∈ cs.map (replaceTok kv.1 kv.2) := by
      refine List.mem_map.mpr ⟨Chunk.tok k, hmem, ?_⟩
      simp [replaceTok, hout.1]
    exact ih this hout.2

/-- When every token key of the chunks is covered by the variable map, the
fold leaves only brace-free segments, so the rendered result has no brace at
all. -/
theorem applyVars_no_brace {vars : List (Str × Str)} {cs : List Chunk}
    (hWF : chunksWF cs = true) (hv : varsWF vars = true)
    (hcov : ∀ k, Chunk.tok k ∈ cs → k ∈ vars.map Prod.fst) :
    '{' ∉ render (applyVars vars cs) ∧ '}' ∉ render (applyVars vars cs) := by
  have hWF2 : chunksWF (applyVars vars cs) = true := by
    clear hcov
    induction vars generalizing cs with
    | nil => simpa [applyVars] using hWF
    | cons kv rest ih =>
      simp only [varsWF, List.all_cons, Bool.and_eq_true] at hv
      simp only [applyVars, List.foldl_cons]
      exact ih (chunksWF_map_replaceTok hWF hv.1.2) (by simp [varsWF, hv.2])
  have hseg : ∀ c ∈ applyVars vars cs, ∃ s, c = Chunk.seg s := by
    intro c hc
    cases c with
    | seg s => exact ⟨s, rfl⟩
    | tok k =>
      obtain ⟨hmem, hnot⟩ := applyVars_tok_mem hc
      exact absurd (hcov k hmem) hnot
  constructor <;>
  · intro hm
    simp only [render, List.mem_flatten, List.mem_map] at hm
    obtain ⟨l, ⟨c, hc, rfl⟩, hml⟩ := hm
    obtain ⟨s, rfl⟩ := hseg c hc
    simp only [chunksWF, List.all_eq_true] at hWF2
    have := hWF2 _ hc
    simp only [braceFree, List.all_eq_true] at this
    have h2 := this _ hml
    simp at h2

/-! ### Basic lemmas on the shared helpers -/

theorem insSorted_perm (n : Nat) (l : List Nat) : (insSorted n l).Perm (n :: l) := by
  induction l with
  | nil => simp [insSorted]
  | cons m t ih =>
    by_cases h : n ≤ m
    · simp [insSorted, h]
    · rw [insSorted, if_neg h]
      exact (List.Perm.cons m ih).trans (List.Perm.swap n m t)

theorem sortNums_perm (l : List Nat) : (sortNums l).Perm l := by
  induction l with
  | nil => simp [sortNums]
  | cons x t ih =>
    have h1 : sortNums (x :: t) = insSorted x (sortNums t) := rfl
    rw [h1]
    exact (insSorted_perm x (sortNums t)).trans (List.Perm.cons x ih)

theorem sortNums_length (l : List Nat) : (sortNums l).length = l.length :=
  (sortNums_perm l).length_eq

theorem sortNums_mem {l : List Nat} {n : Nat} : n ∈ sortNums l ↔ n ∈ l :=
  (sortNums_perm l).mem_iff

theorem sortNums_nodup {l : List Nat} (h : l.Nodup) : (sortNums l).Nodup :=
  (sortNums_perm l).nodup_iff.mpr h

theorem foldl_max_shift (u : List Nat) :
    ∀ i j : Nat, u.foldl max (max i j) = max i (u.foldl max j) := by
  induction u with
  | nil => intro i j; rfl
  | cons y v ih =>
    intro i j
    rw [List.foldl_cons, max_assoc, ih, List.foldl_cons]

theorem foldl_max_eq (t : List Nat) (i : Nat) :
    t.foldl max i = max i (natMaxFold t) := by
  rw [natMaxFold, ← foldl_max_shift t i 0, Nat.max_zero]

theorem natMaxFold_cons (x : Nat) (t : List Nat) :
    natMaxFold (x :: t) = max x (natMaxFold t) := by
  rw [natMaxFold, List.foldl_cons, foldl_max_eq, Nat.zero_max]

theorem natMaxFold_le {l : List Nat} {n : Nat} (h : n ∈ l) : n ≤ natMaxFold l := by
  induction l with
  | nil => simp at h
  | cons x t ih =>
    rw [natMaxFold_cons]
    rcases List.mem_cons.mp h with rfl | hm
    · omega
    · have := ih hm
      omega

theorem natMaxFold_append (a b : List Nat) :
    natMaxFold (a ++ b) = max (natMaxFold a) (natMaxFold b) := by
  have h1 : natMaxFold (a ++ b) = List.foldl max (natMaxFold a) b := by
    rw [natMaxFold, List.foldl_append, natMaxFold]
  rw [h1, foldl_max_eq]

theorem maxD_zero (l : List Nat) : maxD l 0 = natMaxFold l := by
  cases l with
  | nil => simp [maxD, natMaxFold]
  | cons x t =>
    rw [maxD, natMaxFold_cons, foldl_max_eq]

theorem maxD_le {l : List Nat} {d n : Nat} (h : n ∈ l) : n ≤ maxD l d := by
  cases l with
  | nil => simp at h
  | cons x t =>
    rw [maxD, foldl_max_eq]
    rcases List.mem_cons.mp h with rfl | hm
    · omega
    · have := natMaxFold_le hm
      omega

theorem maxKey_le {α : Type} {m : List (Nat × α)} {k : Nat} (h : k ∈ keysA m) :
    k ≤ maxKey m := maxD_le h

theorem natMaxFold_perm {a b : List Nat} (h : a.Perm b) :
    natMaxFold a = natMaxFold b := by
  have inst : RightCommutative (max : Nat → Nat → Nat) := ⟨fun a b c => by omega⟩
  exact h.foldl_eq 0

theorem natMaxFold_map_add (m : Nat) (l : List Nat) (hne : l ≠ []) :
    natMaxFold (l.map (· + m)) = natMaxFold l + m := by
  induction l with
  | nil => exact absurd rfl hne
  | cons x t ih =>
    cases t with
    | nil => simp [natMaxFold]
    | cons y u =>
      have h2 := ih (by simp)
      rw [natMaxFold_cons x (y :: u), List.map_cons, natMaxFold_cons, h2]
      omega

/-! ### Association map lemmas -/

theorem lookupA_mem {κ α : Type} [DecidableEq κ] {m : List (κ × α)} {k : κ} {v : α}
    (hnd : (keysA m).Nodup) (h : (k, v) ∈ m) : lookupA m k = some v := by
  induction m with
  | nil => simp at h
  | cons p t ih =>
    rw [keysA, List.map_cons, List.nodup_cons] at hnd
    rcases List.mem_cons.mp h with rfl | hm
    · simp [lookupA, List.find?]
    · have hk : p.1 ≠ k := by
        rintro rfl
        exact hnd.1 (List.mem_map.mpr ⟨(p.1, v), hm, rfl⟩)
      have hstep : lookupA (p :: t) k = lookupA t k := by
        rw [lookupA, lookupA, List.find?_cons_of_neg _ (by simpa using hk)]
      rw [hstep]
      exact ih hnd.2 hm

theorem lookupA_eq_none {κ α : Type} [DecidableEq κ] {m : List (κ × α)} {k : κ}
    (h : k ∉ keysA m) : lookupA m k = none := by
  rw [lookupA]
  have : m.find? (fun p => p.1 = k) = none := by
    rw [List.find?_eq_none]
    intro p hp
    simp only [decide_eq_true_eq]
    rintro rfl
    exact h (List.mem_map.mpr ⟨p, hp, rfl⟩)
  rw [this]
  rfl

theorem lookupA_mem_of_some {κ α : Type} [DecidableEq κ] {m : List (κ × α)} {k : κ}
    {v : α} (h : lookupA m k = some v) : (k, v) ∈ m := by
  rw [lookupA] at h
  cases hf : m.find? (fun p => p.1 = k) with
  | none => rw [hf] at h; simp at h
  | some p =>
    rw [hf] at h
    have hp := List.find?_some hf
    simp only [decide_eq_true_eq] at hp
    have hm := List.mem_of_find?_eq_some hf
    have : p = (k, v) := by
      cases p
      simp only [Option.map, Option.some.injEq] at h
      simp_all
    rw [← this]
    exact hm

theorem setKV_fresh {κ α : Type} [DecidableEq κ] {m : List (κ × α)} {k : κ} (v : α)
    (h : k ∉ keysA m) : setKV m k v = m ++ [(k, v)] := by
  rw [setKV, if_neg h]

theorem keysA_append {κ α : Type} (a b : List (κ × α)) :
    keysA (a ++ b) = keysA a ++ keysA b := by
  simp [keysA]

theorem keysA_updKV {κ α : Type} [DecidableEq κ] (m : List (κ × α)) (k : κ)
    (f : α → α) : keysA (updKV m k f) = keysA m := by
  rw [updKV, keysA, keysA, List.map_map]
  apply List.map_congr_left
  intro p hp
  by_cases h : p.1 = k <;> simp [h]

/-- copyFam under fresh shifted keys is plain append of the looked-up
entries. -/
theorem copyFam_eq {α : Type} (src : List (Nat × α)) (off : Nat) :
    ∀ (keys : List Nat) (dst : List (Nat × α)),
      keys.Nodup → (∀ n ∈ keys, n + off ∉ keysA dst) →
      copyFam dst src keys off =
        dst ++ keys.filterMap (fun n => (lookupA src n).map (fun v => (n + off, v))) := by
  intro keys
  induction keys with
  | nil => intro dst _ _; simp [copyFam]
  | cons n t ih =>
    intro dst hnd hfresh
    rw [List.nodup_cons] at hnd
    have hstep : copyFam dst src (n :: t) off =
        copyFam
          (match lookupA src n with
            | some v => setKV dst (n + off) v
            | none => dst)
          src t off := rfl
    rw [hstep]
    cases hl : lookupA src n with
    | none =>
      show copyFam dst src t off = _
      rw [ih dst hnd.2 (fun n2 h2 => hfresh n2 (List.mem_cons_of_mem n h2))]
      simp [hl]
    | some v =>
      show copyFam (setKV dst (n + off) v) src t off = _
      rw [setKV_fresh v (hfresh n (List.mem_cons_self n t))]
      rw [ih (dst ++ [(n + off, v)]) hnd.2]
      · simp [hl]
      · intro n2 h2
        rw [keysA_append]
        simp only [List.mem_append, not_or]
        refine ⟨hfresh n2 (List.mem_cons_of_mem n h2), ?_⟩
        simp [keysA]
        intro heq
        exact absurd (by omega : n2 = n) (fun hq => hnd.1 (hq ▸ h2))

/-- For a part family every scanned key is present, so the filterMap is a
plain map. -/
theorem copyFam_parts_eq {α : Type} (src : List (Nat × α)) (off : Nat)
    (dst : List (Nat × α)) (hnd : (keysA src).Nodup)
    (hfresh : ∀ n ∈ numsOf src, n + off ∉ keysA dst) :
    copyFam dst src (numsOf src) off =
      dst ++ (numsOf src).filterMap
        (fun n => (lookupA src n).map (fun v => (n + off, v))) :=
  copyFam_eq src off (numsOf src) dst (sortNums_nodup hnd) hfresh

theorem lookupA_isSome_of_mem {κ α : Type} [DecidableEq κ] {m : List (κ × α)}
    {k : κ} (h : k ∈ keysA m) : (lookupA m k).isSome := by
  cases hl : lookupA m k with
  | some v => simp
  | none =>
    rw [lookupA] at hl
    cases hf : m.find? (fun p => p.1 = k) with
    | some p => rw [hf] at hl; simp at hl
    | none =>
      obtain ⟨p, hp, rfl⟩ := List.mem_map.mp h
      have := List.find?_eq_none.mp hf p hp
      simp at this

theorem keysA_filterMap_lookup {α : Type} (src : List (Nat × α)) (off : Nat) :
    ∀ l : List Nat, (∀ n ∈ l, n ∈ keysA src) →
      keysA (l.filterMap (fun n => (lookupA src n).map (fun v => (n + off, v)))) =
        l.map (· + off) := by
  intro l
  induction l with
  | nil => intro _; simp [keysA]
  | cons n t ih =>
    intro hall
    have hs := lookupA_isSome_of_mem (hall n (List.mem_cons_self n t))
    cases hl : lookupA src n with
    | none => rw [hl] at hs; simp at hs
    | some v =>
      rw [List.filterMap_cons, hl]
      have hrec := ih (fun n2 h2 => hall n2 (List.mem_cons_of_mem n h2))
      simp only [Option.map, keysA, List.map_cons] at hrec ⊢
      rw [hrec]

theorem keysA_copyFam_parts {α : Type} (src : List (Nat × α)) (off : Nat)
    (dst : List (Nat × α)) (hnd : (keysA src).Nodup)
    (hfresh : ∀ n ∈ numsOf src, n + off ∉ keysA dst) :
    keysA (copyFam dst src (numsOf src) off) =
      keysA dst ++ (numsOf src).map (· + off) := by
  rw [copyFam_parts_eq src off dst hnd hfresh, keysA_append]
  congr 1
  exact keysA_filterMap_lookup src off (numsOf src) (fun n hn => sortNums_mem.mp hn)

theorem insSorted_sorted {l : List Nat} (h : l.Sorted (· ≤ ·)) (n : Nat) :
    (insSorted n l).Sorted (· ≤ ·) := by
  induction l with
  | nil => simp [insSorted]
  | cons m t ih =>
    rw [List.sorted_cons] at h
    by_cases hnm : n ≤ m
    · rw [insSorted, if_pos hnm, List.sorted_cons]
      refine ⟨?_, List.sorted_cons.mpr h⟩
      intro b hb
      rcases List.mem_cons.mp hb with rfl | hbm
      · exact hnm
      · exact le_trans hnm (h.1 b hbm)
    · rw [insSorted, if_neg hnm, List.sorted_cons]
      refine ⟨?_, ih h.2⟩
      intro b hb
      rcases List.mem_cons.mp ((insSorted_perm n t).mem_iff.mp hb) with rfl | hbm
      · omega
      · exact h.1 b hbm

theorem sortNums_sorted (l : List Nat) : (sortNums l).Sorted (· ≤ ·) := by
  induction l with
  | nil => simp [sortNums]
  | cons x t ih => exact insSorted_sorted ih x

theorem sortNums_of_sorted {l : List Nat} (h : l.Sorted (· ≤ ·)) : sortNums l = l :=
  List.eq_of_perm_of_sorted (sortNums_perm l) (sortNums_sorted l) h

theorem sortNums_idem (l : List Nat) : sortNums (sortNums l) = sortNums l :=
  sortNums_of_sorted (sortNums_sorted l)

/-! ### Field projections of the merge steps -/

theorem harmonizeSize_proj (c : Container) (m : Manifest) :
    (harmonizeSize c m).slides = c.slides ∧
      (harmonizeSize c m).layouts = c.layouts ∧
      (harmonizeSize c m).masters = c.masters ∧
      (harmonizeSize c m).themes = c.themes ∧
      (harmonizeSize c m).presRels = c.presRels ∧
      (harmonizeSize c m).pres.sldIds = c.pres.sldIds ∧
      (harmonizeSize c m).pres.mstIds = c.pres.mstIds := by
  rw [harmonizeSize]
  split <;> simp

theorem registerSlides_proj (c : Container) (sk : List Nat) (so : Nat)
    (mk2 : List Nat) (mo : Nat) :
    (registerSlides c sk so mk2 mo).slides = c.slides ∧
      (registerSlides c sk so mk2 mo).layouts = c.layouts ∧
      (registerSlides c sk so mk2 mo).masters = c.masters ∧
      (registerSlides c sk so mk2 mo).themes = c.themes := by
  rw [registerSlides]
  simp

/-- The family fields of the merged container. -/
theorem appendC_slides (b s : Container) :
    (appendC b s).slides = copyFam b.slides s.slides (numsOf s.slides) (maxKey b.slides) := by
  simp [appendC, harmonizeSize, copyDefaultTypes, registerContentTypes, registerSlides]
  split <;> rfl

theorem appendC_layouts (b s : Container) :
    (appendC b s).layouts =
      copyFam b.layouts s.layouts (numsOf s.layouts) (maxKey b.layouts) := by
  simp [appendC, harmonizeSize, copyDefaultTypes, registerContentTypes, registerSlides]
  split <;> rfl

theorem appendC_themes (b s : Container) :
    (appendC b s).themes = copyFam b.themes s.themes (numsOf s.themes) (maxKey b.themes) := by
  simp [appendC, harmonizeSize, copyDefaultTypes, registerContentTypes, registerSlides]
  split <;> rfl

theorem appendC_masters (b s : Container) :
    (appendC b s).masters =
      ((numsOf s.masters).map (· + maxKey b.masters)).foldl (fixMasterM b.pres)
        (copyFam b.masters s.masters (numsOf s.masters) (maxKey b.masters)) := by
  simp [appendC, harmonizeSize, copyDefaultTypes, registerContentTypes, registerSlides]
  split <;> rfl

theorem appendC_sldIds (b s : Container) :
    (appendC b s).pres.sldIds =
      b.pres.sldIds ++
        (mkSldEntries (numsOf s.slides) (maxKey b.slides)
            (natMaxFold (b.presRels.map Rel.id))
            (maxD (b.pres.sldIds.map Prod.fst) 255)).map Prod.fst := by
  simp only [appendC, harmonizeSize, copyDefaultTypes, registerContentTypes,
    registerSlides, natMaxFold, numsOf, sortNums_idem]
  split <;> rfl

theorem appendC_presRels (b s : Container) :
    ∃ mid,
      (appendC b s).presRels =
        b.presRels ++
          (mkSldEntries (numsOf s.slides) (maxKey b.slides)
              (natMaxFold (b.presRels.map Rel.id))
              (maxD (b.pres.sldIds.map Prod.fst) 255)).map Prod.snd ++
          (mkMstEntries (numsOf s.masters) (maxKey b.masters)
              (natMaxFold (b.presRels.map Rel.id) + (numsOf s.slides).length)
              mid).map Prod.snd := by
  refine
    ⟨maxD
        (collectedIds b.pres
          (((numsOf s.masters).map (· + maxKey b.masters)).foldl (fixMasterM b.pres)
            (copyFam b.masters s.masters (numsOf s.masters) (maxKey b.masters)))
          none)
        2147483647,
      ?_⟩
  simp only [appendC, harmonizeSize, copyDefaultTypes, registerContentTypes,
    registerSlides, natMaxFold, numsOf, sortNums_idem, sortNums_length]
  split <;> simp [List.append_assoc]

/-! ### Manifest registration lemmas -/

theorem mkSldEntries_facts (olds : List Nat) (off : Nat) :
    ∀ rid sid : Nat, ∀ x ∈ mkSldEntries olds off rid sid,
      rid < x.2.id ∧ x.2.id ≤ rid + olds.length ∧ x.1.2 = x.2.id := by
  induction olds with
  | nil => intro rid sid x hx; simp [mkSldEntries] at hx
  | cons o t ih =>
    intro rid sid x hx
    rw [mkSldEntries] at hx
    rcases List.mem_cons.mp hx with rfl | hm
    · refine ⟨?_, ?_, rfl⟩
      · show rid < rid + 1
        omega
      · show rid + 1 ≤ rid + (o :: t).length
        rw [List.length_cons]
        omega
    · have h2 := ih (rid + 1) (sid + 1) x hm
      refine ⟨by omega, ?_, h2.2.2⟩
      rw [List.length_cons]
      omega

theorem mkMstEntries_facts (olds : List Nat) (off : Nat) :
    ∀ rid mid : Nat, ∀ x ∈ mkMstEntries olds off rid mid,
      rid < x.2.id ∧ x.2.id ≤ rid + olds.length ∧ x.1.2 = x.2.id := by
  induction olds with
  | nil => intro rid mid x hx; simp [mkMstEntries] at hx
  | cons o t ih =>
    intro rid mid x hx
    rw [mkMstEntries] at hx
    rcases List.mem_cons.mp hx with rfl | hm
    · refine ⟨?_, ?_, rfl⟩
      · show rid < rid + 1
        omega
      · show rid + 1 ≤ rid + (o :: t).length
        rw [List.length_cons]
        omega
    · have h2 := ih (rid + 1) (mid + 1) x hm
      refine ⟨by omega, ?_, h2.2.2⟩
      rw [List.length_cons]
      omega

theorem lookupRelId_append_right {rels1 rels2 : List Rel} {rid : Nat}
    (h : ∀ r ∈ rels1, r.id ≠ rid) :
    lookupRelId (rels1 ++ rels2) rid = lookupRelId rels2 rid := by
  rw [lookupRelId, List.find?_append]
  have : List.find? (fun r => r.id = rid) rels1 = none := by
    rw [List.find?_eq_none]
    intro r hr
    simpa using h r hr
  rw [this]
  rfl

theorem lookupRelId_append_left {rels1 rels2 : List Rel} {rid : Nat}
    (h : (lookupRelId rels1 rid).isSome) :
    lookupRelId (rels1 ++ rels2) rid = lookupRelId rels1 rid := by
  rw [lookupRelId, List.find?_append]
  cases hf : List.find? (fun r => r.id = rid) rels1 with
  | none => rw [lookupRelId, hf] at h; simp at h
  | some r => rw [lookupRelId, hf]; rfl

/-- The slide number the merge parses back from a written slide target. -/
theorem slideNumOfTarget_slideTarget (n : Nat) :
    slideNumOfTarget (slideTarget n) = some n := by
  have hdrop :
      (slideTarget n).drop (strC "slides/slide").length = natToStr n ++ strC ".xml" := by
    rw [slideTarget]
    exact List.drop_left _ _
  rw [slideNumOfTarget, if_pos, hdrop]
  · have hsfx : sfxOf (strC ".xml") (natToStr n ++ strC ".xml") = true := by
      rw [sfxOf, List.reverse_append]
      exact pfxOf_append _ _
    rw [if_pos hsfx]
    have hlen : (natToStr n ++ strC ".xml").length - 4 = (natToStr n).length := by
      simp [strC]
    rw [hlen]
    have htake : (natToStr n ++ strC ".xml").take (natToStr n).length = natToStr n :=
      List.take_left _ _
    rw [htake]
    exact parseNat_natToStr n
  · rw [slideTarget]
    exact pfxOf_append _ _

/-- Resolving the freshly registered slide entries yields exactly the shifted
slide numbers, in registration order. -/
theorem displayOrder_mkSld (olds : List Nat) (off : Nat) :
    ∀ (rid sid : Nat) (pre post : List Rel),
      (∀ r ∈ pre, r.id ≤ rid) → (∀ r ∈ post, rid + olds.length < r.id) →
      ((mkSldEntries olds off rid sid).map Prod.fst).filterMap
          (fun e =>
            (lookupRelId (pre ++ (mkSldEntries olds off rid sid).map Prod.snd ++ post)
                e.2).bind
              (fun r => slideNumOfTarget r.target)) =
        olds.map (· + off) := by
  induction olds with
  | nil => intro rid sid pre post hpre hpost; simp [mkSldEntries]
  | cons o t ih =>
    intro rid sid pre post hpre hpost
    rw [mkSldEntries]
    simp only [List.map_cons, List.filterMap_cons]
    have hhead :
        lookupRelId
            (pre ++
              (⟨rid + 1, slideRelTypeStr, slideTarget (o + off)⟩ ::
                (mkSldEntries t off (rid + 1) (sid + 1)).map Prod.snd) ++ post)
            (rid + 1) =
          some ⟨rid + 1, slideRelTypeStr, slideTarget (o + off)⟩ := by
      rw [lookupRelId, List.find?_append, List.find?_append]
      have h1 : List.find? (fun r => r.id = rid + 1) pre = none := by
        rw [List.find?_eq_none]
        intro r hr
        have := hpre r hr
        simp
        omega
      rw [h1, List.find?_cons_of_pos _ (by simp)]
      rfl
    rw [hhead]
    simp only [Option.some_bind, slideNumOfTarget_slideTarget, List.map_cons]
    congr 1
    have hrearr :
        pre ++
            (⟨rid + 1, slideRelTypeStr, slideTarget (o + off)⟩ ::
              (mkSldEntries t off (rid + 1) (sid + 1)).map Prod.snd) ++ post =
          (pre ++ [⟨rid + 1, slideRelTypeStr, slideTarget (o + off)⟩]) ++
            (mkSldEntries t off (rid + 1) (sid + 1)).map Prod.snd ++ post := by
      simp
    rw [hrearr]
    apply ih (rid + 1) (sid + 1)
    · intro r hr
      rcases List.mem_append.mp hr with hm | hm
      · have := hpre r hm
        omega
      · simp at hm
        rw [hm]
    · intro r hr
      have := hpost r hr
      simp at this ⊢
      omega

theorem copyFam_fresh {α : Type} (dst src : List (Nat × α))
    (hpos : ∀ n ∈ keysA src, 1 ≤ n) :
    ∀ n ∈ numsOf src, n + maxKey dst ∉ keysA dst := by
  intro n hn hmem
  have h1 : 1 ≤ n := hpos n (sortNums_mem.mp hn)
  have h2 := maxKey_le hmem
  rw [maxKey] at h2
  omega

theorem keysA_famStep {α : Type} (dst src : List (Nat × α))
    (hnd : (keysA src).Nodup) (hpos : ∀ n ∈ keysA src, 1 ≤ n) :
    keysA (copyFam dst src (numsOf src) (maxKey dst)) =
      keysA dst ++ (numsOf src).map (· + maxKey dst) :=
  keysA_copyFam_parts src (maxKey dst) dst hnd (copyFam_fresh dst src hpos)

theorem famStep_nodup {α : Type} (dst src : List (Nat × α))
    (hd : (keysA dst).Nodup) (hnd : (keysA src).Nodup)
    (hpos : ∀ n ∈ keysA src, 1 ≤ n) :
    (keysA (copyFam dst src (numsOf src) (maxKey dst))).Nodup := by
  rw [keysA_famStep dst src hnd hpos]
  refine List.Nodup.append hd ?_ ?_
  · exact (sortNums_nodup hnd).map (fun a b hab => by omega)
  · intro n hnd2 hnm
    obtain ⟨n0, hn0, rfl⟩ := List.mem_map.mp hnm
    exact copyFam_fresh dst src hpos n0 hn0 hnd2

theorem famStep_pos {α : Type} (dst src : List (Nat × α))
    (hd : ∀ n ∈ keysA dst, 1 ≤ n) (hnd : (keysA src).Nodup)
    (hpos : ∀ n ∈ keysA src, 1 ≤ n) :
    ∀ n ∈ keysA (copyFam dst src (numsOf src) (maxKey dst)), 1 ≤ n := by
  rw [keysA_famStep dst src hnd hpos]
  intro n hn
  rcases List.mem_append.mp hn with hm | hm
  · exact hd n hm
  · obtain ⟨n0, hn0, rfl⟩ := List.mem_map.mp hm
    have := hpos n0 (sortNums_mem.mp hn0)
    omega

theorem maxKey_eq_natMaxFold {α : Type} (m : List (Nat × α)) :
    maxKey m = natMaxFold (keysA m) := by
  rw [maxKey, maxD_zero]
  rfl

theorem famStep_maxKey {α : Type} (dst src : List (Nat × α))
    (hnd : (keysA src).Nodup) (hpos : ∀ n ∈ keysA src, 1 ≤ n) :
    maxKey (copyFam dst src (numsOf src) (maxKey dst)) = maxKey dst + maxKey src := by
  have hk := keysA_famStep dst src hnd hpos
  rw [maxKey_eq_natMaxFold, hk, natMaxFold_append]
  cases hsrc : numsOf src with
  | nil =>
    have hempty : keysA src = [] := by
      cases hs2 : keysA src with
      | nil => rfl
      | cons x t =>
        exfalso
        have hx : x ∈ numsOf src :=
          sortNums_mem.mpr (show x ∈ keysA src by rw [hs2]; simp)
        rw [hsrc] at hx
        simp at hx
    rw [maxKey_eq_natMaxFold dst, maxKey_eq_natMaxFold src, hempty]
    simp [natMaxFold]
  | cons x t =>
    rw [← hsrc, natMaxFold_map_add _ _ (by rw [hsrc]; simp)]
    have hperm : natMaxFold (numsOf src) = natMaxFold (keysA src) :=
      natMaxFold_perm (sortNums_perm _)
    rw [hperm, maxKey_eq_natMaxFold, maxKey_eq_natMaxFold]
    omega

theorem keysA_setKV_mem {κ α : Type} [DecidableEq κ] {m : List (κ × α)} {k : κ}
    (v : α) (hmem : k ∈ keysA m) : keysA (setKV m k v) = keysA m := by
  rw [setKV, if_pos hmem, keysA, List.map_map, keysA]
  apply List.map_congr_left
  intro q hq
  by_cases hqn : q.1 = k <;> simp [hqn]

theorem keysA_fixMasterM (p : Manifest) (m : List (Nat × MasterPart)) (n : Nat) :
    keysA (fixMasterM p m n) = keysA m := by
  rw [fixMasterM]
  cases hl : lookupA m n with
  | none => rfl
  | some m0 =>
    obtain ⟨lids, body⟩ := m0
    cases lids with
    | none => rfl
    | some ids =>
      exact keysA_setKV_mem _
        (List.mem_map.mpr ⟨(n, ⟨some ids, body⟩), lookupA_mem_of_some hl, rfl⟩)

theorem keysA_fixFold (p : Manifest) (ns : List Nat) :
    ∀ m : List (Nat × MasterPart), keysA (ns.foldl (fixMasterM p) m) = keysA m := by
  induction ns with
  | nil => intro m; rfl
  | cons n t ih =>
    intro m
    rw [List.foldl_cons, ih, keysA_fixMasterM]

theorem appendC_keysA_masters (b s : Container) (hnd : (keysA s.masters).Nodup)
    (hpos : ∀ n ∈ keysA s.masters, 1 ≤ n) :
    keysA (appendC b s).masters =
      keysA b.masters ++ (numsOf s.masters).map (· + maxKey b.masters) := by
  rw [appendC_masters, keysA_fixFold, keysA_famStep b.masters s.masters hnd hpos]

/-- appendC preserves container validity. -/
theorem CWF_appendC {b s : Container} (hb : CWF b) (hs : CWF s) :
    CWF (appendC b s) := by
  refine
    ⟨?_, ?_, ?_, ?_, ?_, ?_, ?_, ?_, ?_⟩
  · rw [appendC_slides]
    exact famStep_nodup _ _ hb.sldNodup hs.sldNodup hs.sldPos
  · rw [appendC_layouts]
    exact famStep_nodup _ _ hb.layNodup hs.layNodup hs.layPos
  · rw [appendC_keysA_masters b s hs.mstNodup hs.mstPos]
    have := famStep_nodup b.masters s.masters hb.mstNodup hs.mstNodup hs.mstPos
    rw [keysA_famStep b.masters s.masters hs.mstNodup hs.mstPos] at this
    exact this
  · rw [appendC_themes]
    exact famStep_nodup _ _ hb.thmNodup hs.thmNodup hs.thmPos
  · rw [appendC_slides]
    exact famStep_pos _ _ hb.sldPos hs.sldNodup hs.sldPos
  · rw [appendC_layouts]
    exact famStep_pos _ _ hb.layPos hs.layNodup hs.layPos
  · rw [appendC_keysA_masters b s hs.mstNodup hs.mstPos]
    have := famStep_pos b.masters s.masters hb.mstPos hs.mstNodup hs.mstPos
    rw [keysA_famStep b.masters s.masters hs.mstNodup hs.mstPos] at this
    exact this
  · rw [appendC_themes]
    exact famStep_pos _ _ hb.thmPos hs.thmNodup hs.thmPos
  · -- every manifest slide entry still resolves
    obtain ⟨mid, hrels⟩ := appendC_presRels b s
    rw [appendC_sldIds, hrels]
    intro e he
    rcases List.mem_append.mp he with hm | hm
    · obtain ⟨r, hr, hrid⟩ := hb.sldResolve e hm
      exact ⟨r, by simp [hr], hrid⟩
    · obtain ⟨x, hx, rfl⟩ := List.mem_map.mp hm
      have hfact := mkSldEntries_facts _ _ _ _ x hx
      refine ⟨x.2, ?_, hfact.2.2.symm⟩
      simp only [List.mem_append]
      left
      right
      exact List.mem_map.mpr ⟨x, hx, rfl⟩

/-- One merge step appends the copied source's slides, in ascending part
number order and shifted by the base maximum, to the manifest display
order. -/
theorem displayOrder_appendC (b s : Container) (hb : CWF b) :
    displayOrder (appendC b s) =
      displayOrder b ++ (numsOf s.slides).map (· + maxKey b.slides) := by
  obtain ⟨mid, hrels⟩ := appendC_presRels b s
  rw [displayOrder, appendC_sldIds, hrels, List.filterMap_append]
  congr 1
  · rw [displayOrder]
    apply List.filterMap_congr
    intro e he
    have hsome : (lookupRelId b.presRels e.2).isSome := by
      obtain ⟨r, hr, hid⟩ := hb.sldResolve e he
      rw [lookupRelId]
      cases hf : List.find? (fun r2 => r2.id = e.2) b.presRels with
      | some _ => simp
      | none =>
        have := List.find?_eq_none.mp hf r hr
        simp [hid] at this
    rw [List.append_assoc, lookupRelId_append_left hsome]
  · have hpre : ∀ r ∈ b.presRels, r.id ≤ natMaxFold (b.presRels.map Rel.id) := by
      intro r hr
      exact natMaxFold_le (List.mem_map.mpr ⟨r, hr, rfl⟩)
    have hpost :
        ∀ r ∈ (mkMstEntries (numsOf s.masters) (maxKey b.masters)
            (natMaxFold (b.presRels.map Rel.id) + (numsOf s.slides).length) mid).map
            Prod.snd,
          natMaxFold (b.presRels.map Rel.id) + (numsOf s.slides).length < r.id := by
      intro r hr
      obtain ⟨x, hx, rfl⟩ := List.mem_map.mp hr
      exact (mkMstEntries_facts _ _ _ _ x hx).1
    exact displayOrder_mkSld (numsOf s.slides) (maxKey b.slides) _ _ b.presRels _
      hpre hpost

theorem appendC_maxKey_slides (b s : Container) (hs : CWF s) :
    maxKey (appendC b s).slides = maxKey b.slides + maxKey s.slides := by
  rw [appendC_slides]
  exact famStep_maxKey b.slides s.slides hs.sldNodup hs.sldPos

/-- The folded merge concatenates the base display order with each appended
source's ascending slide numbers under cumulative offsets. -/
theorem mergeList_display (srcs : List Container) :
    ∀ b : Container, CWF b →
      (∀ s ∈ srcs, CWF s ∧ displayOrder s = numsOf s.slides) →
      displayOrder (mergeList b srcs) =
        displayOrder b ++ (shiftedDisplays (maxKey b.slides) srcs).flatten := by
  induction srcs with
  | nil => intro b _ _; simp [mergeList, shiftedDisplays]
  | cons s rest ih =>
    intro b hb hall
    have hs := hall s (List.mem_cons_self s rest)
    have hstep : mergeList b (s :: rest) = mergeList (appendC b s) rest := rfl
    rw [hstep,
      ih (appendC b s) (CWF_appendC hb hs.1)
        (fun s2 h2 => hall s2 (List.mem_cons_of_mem _ h2)),
      displayOrder_appendC b s hb, appendC_maxKey_slides b s hs.1, shiftedDisplays]
    rw [List.flatten_cons, ← hs.2, List.append_assoc]

/-! ### Part counting and part preservation -/

theorem length_eq_keysA {κ α : Type} (m : List (κ × α)) :
    m.length = (keysA m).length := by
  rw [keysA, List.length_map]

theorem famStep_length {α : Type} (dst src : List (Nat × α))
    (hnd : (keysA src).Nodup) (hpos : ∀ n ∈ keysA src, 1 ≤ n) :
    (copyFam dst src (numsOf src) (maxKey dst)).length = dst.length + src.length := by
  rw [length_eq_keysA, keysA_famStep dst src hnd hpos, List.length_append,
    List.length_map, numsOf, sortNums_length, ← length_eq_keysA]
  rw [List.length_map]

theorem appendC_slides_length (b s : Container) (hs : CWF s) :
    (appendC b s).slides.length = b.slides.length + s.slides.length := by
  rw [appendC_slides]
  exact famStep_length b.slides s.slides hs.sldNodup hs.sldPos

theorem appendC_layouts_length (b s : Container) (hs : CWF s) :
    (appendC b s).layouts.length = b.layouts.length + s.layouts.length := by
  rw [appendC_layouts]
  exact famStep_length b.layouts s.layouts hs.layNodup hs.layPos

theorem appendC_masters_length (b s : Container) (hs : CWF s) :
    (appendC b s).masters.length = b.masters.length + s.masters.length := by
  rw [length_eq_keysA, appendC_keysA_masters b s hs.mstNodup hs.mstPos,
    List.length_append, List.length_map, numsOf, sortNums_length, ← length_eq_keysA]
  rw [List.length_map]

theorem appendC_themes_length (b s : Container) (hs : CWF s) :
    (appendC b s).themes.length = b.themes.length + s.themes.length := by
  rw [appendC_themes]
  exact famStep_length b.themes s.themes hs.thmNodup hs.thmPos

theorem mem_copyFam_of_src {α : Type} {src : List (Nat × α)} {k : Nat} {v : α}
    (hnd : (keysA src).Nodup) (hm : (k, v) ∈ src) (dst : List (Nat × α))
    (hfresh : ∀ n ∈ numsOf src, n + maxKey dst ∉ keysA dst) :
    (k + maxKey dst, v) ∈ copyFam dst src (numsOf src) (maxKey dst) := by
  rw [copyFam_parts_eq src (maxKey dst) dst hnd hfresh]
  refine List.mem_append.mpr (Or.inr ?_)
  refine List.mem_filterMap.mpr ⟨k, ?_, ?_⟩
  · exact sortNums_mem.mpr (List.mem_map.mpr ⟨(k, v), hm, rfl⟩)
  · rw [lookupA_mem hnd hm]
    rfl

theorem mem_copyFam_of_dst {α : Type} {src : List (Nat × α)} {dst : List (Nat × α)}
    {p : Nat × α} (hm : p ∈ dst) (keys : List Nat) (off : Nat)
    (hnd : keys.Nodup) (hfresh : ∀ n ∈ keys, n + off ∉ keysA dst) :
    p ∈ copyFam dst src keys off := by
  rw [copyFam_eq src off keys dst hnd hfresh]
  exact List.mem_append.mpr (Or.inl hm)

theorem mem_setKV_of_mem {κ α : Type} [DecidableEq κ] {m : List (κ × α)} {k : κ}
    {v : α} (hm : (k, v) ∈ m) (n : κ) (w : α) (hmem : n ∈ keysA m) :
    (if k = n then (n, w) else (k, v)) ∈ setKV m n w := by
  rw [setKV, if_pos hmem]
  refine List.mem_map.mpr ⟨(k, v), hm, ?_⟩
  by_cases hkn : k = n <;> simp [hkn]

theorem fixMasterM_mem_body {m : List (Nat × MasterPart)} {k : Nat} {v : MasterPart}
    (hnd : (keysA m).Nodup) (hm : (k, v) ∈ m) (p : Manifest) (n : Nat) :
    ∃ v', (k, v') ∈ fixMasterM p m n ∧ v'.body = v.body := by
  rw [fixMasterM]
  cases hl : lookupA m n with
  | none => exact ⟨v, hm, rfl⟩
  | some m0 =>
    obtain ⟨lids, body⟩ := m0
    cases lids with
    | none => exact ⟨v, hm, rfl⟩
    | some ids =>
      have hmem : n ∈ keysA m :=
        List.mem_map.mpr ⟨(n, ⟨some ids, body⟩), lookupA_mem_of_some hl, rfl⟩
      have hsk := mem_setKV_of_mem hm n
        { layoutIds :=
            some
              ((List.range ids.length).map
                (fun i => maxD (collectedIds p m (some n)) 2147483647 + 1 + i)),
          body := body }
        hmem
      by_cases hkn : k = n
      · have hv : (⟨some ids, body⟩ : MasterPart) = v := by
          subst hkn
          exact (Option.some.inj ((lookupA_mem hnd hm).symm.trans hl)).symm
        refine
          ⟨{ layoutIds :=
                some
                  ((List.range ids.length).map
                    (fun i => maxD (collectedIds p m (some n)) 2147483647 + 1 + i)),
              body := body },
            ?_, ?_⟩
        · exact (by simpa [hkn] using hsk)
        · show body = v.body
          rw [← hv]
      · refine ⟨v, ?_, rfl⟩
        exact (by simpa [hkn] using hsk)

theorem fixFold_mem_body (p : Manifest) (ns : List Nat) :
    ∀ (m : List (Nat × MasterPart)) (k : Nat) (v : MasterPart),
      (keysA m).Nodup → (k, v) ∈ m →
      ∃ v', (k, v') ∈ ns.foldl (fixMasterM p) m ∧ v'.body = v.body := by
  induction ns with
  | nil => intro m k v _ hm; exact ⟨v, hm, rfl⟩
  | cons n t ih =>
    intro m k v hnd hm
    obtain ⟨v1, hv1, hb1⟩ := fixMasterM_mem_body hnd hm p n
    have hnd1 : (keysA (fixMasterM p m n)).Nodup := by
      rw [keysA_fixMasterM]
      exact hnd
    obtain ⟨v2, hv2, hb2⟩ := ih (fixMasterM p m n) k v1 hnd1 hv1
    exact ⟨v2, hv2, hb2.trans hb1⟩

theorem appendC_mem_b_slides {b s : Container} (hs : CWF s) {p : Nat × Bytes}
    (hm : p ∈ b.slides) : p ∈ (appendC b s).slides := by
  rw [appendC_slides]
  exact mem_copyFam_of_dst hm _ _ (sortNums_nodup hs.sldNodup)
    (copyFam_fresh b.slides s.slides hs.sldPos)

theorem appendC_mem_s_slides {b s : Container} (hs : CWF s) {k : Nat} {v : Bytes}
    (hm : (k, v) ∈ s.slides) :
    (k + maxKey b.slides, v) ∈ (appendC b s).slides := by
  rw [appendC_slides]
  exact mem_copyFam_of_src hs.sldNodup hm b.slides
    (copyFam_fresh b.slides s.slides hs.sldPos)

theorem appendC_mem_b_layouts {b s : Container} (hs : CWF s) {p : Nat × Bytes}
    (hm : p ∈ b.layouts) : p ∈ (appendC b s).layouts := by
  rw [appendC_layouts]
  exact mem_copyFam_of_dst hm _ _ (sortNums_nodup hs.layNodup)
    (copyFam_fresh b.layouts s.layouts hs.layPos)

theorem appendC_mem_s_layouts {b s : Container} (hs : CWF s) {k : Nat} {v : Bytes}
    (hm : (k, v) ∈ s.layouts) :
    (k + maxKey b.layouts, v) ∈ (appendC b s).layouts := by
  rw [appendC_layouts]
  exact mem_copyFam_of_src hs.layNodup hm b.layouts
    (copyFam_fresh b.layouts s.layouts hs.layPos)

theorem appendC_mem_b_themes {b s : Container} (hs : CWF s) {p : Nat × Bytes}
    (hm : p ∈ b.themes) : p ∈ (appendC b s).themes := by
  rw [appendC_themes]
  exact mem_copyFam_of_dst hm _ _ (sortNums_nodup hs.thmNodup)
    (copyFam_fresh b.themes s.themes hs.thmPos)

theorem appendC_mem_s_themes {b s : Container} (hs : CWF s) {k : Nat} {v : Bytes}
    (hm : (k, v) ∈ s.themes) :
    (k + maxKey b.themes, v) ∈ (appendC b s).themes := by
  rw [appendC_themes]
  exact mem_copyFam_of_src hs.thmNodup hm b.themes
    (copyFam_fresh b.themes s.themes hs.thmPos)

theorem appendC_mem_b_masters {b s : Container} (hb : CWF b) (hs : CWF s)
    {k : Nat} {v : MasterPart} (hm : (k, v) ∈ b.masters) :
    ∃ v', (k, v') ∈ (appendC b s).masters ∧ v'.body = v.body := by
  rw [appendC_masters]
  exact fixFold_mem_body b.pres _ _ k v
    (famStep_nodup b.masters s.masters hb.mstNodup hs.mstNodup hs.mstPos)
    (mem_copyFam_of_dst hm _ _ (sortNums_nodup hs.mstNodup)
      (copyFam_fresh b.masters s.masters hs.mstPos))

theorem appendC_mem_s_masters {b s : Container} (hb : CWF b) (hs : CWF s)
    {k : Nat} {v : MasterPart} (hm : (k, v) ∈ s.masters) :
    ∃ v', (k + maxKey b.masters, v') ∈ (appendC b s).masters ∧ v'.body = v.body := by
  rw [appendC_masters]
  exact fixFold_mem_body b.pres _ _ _ v
    (famStep_nodup b.masters s.masters hb.mstNodup hs.mstNodup hs.mstPos)
    (mem_copyFam_of_src hs.mstNodup hm b.masters
      (copyFam_fresh b.masters s.masters hs.mstPos))

/-- The merge never drops a slide, layout, master, or theme part of any
source: each reappears (renumbered) in the result, with identical bytes for
slides, layouts, and themes, and an identical body for masters (whose layout
id list the merge rewrites by design). -/
theorem mergeList_part_mem (srcs : List Container) :
    ∀ b : Container, CWF b → (∀ s ∈ srcs, CWF s) →
      ∀ c ∈ b :: srcs,
        (∀ p ∈ c.slides, ∃ n, (n, p.2) ∈ (mergeList b srcs).slides) ∧
        (∀ p ∈ c.layouts, ∃ n, (n, p.2) ∈ (mergeList b srcs).layouts) ∧
        (∀ p ∈ c.themes, ∃ n, (n, p.2) ∈ (mergeList b srcs).themes) ∧
        (∀ p ∈ c.masters,
          ∃ n v', (n, v') ∈ (mergeList b srcs).masters ∧ v'.body = p.2.body) := by
  induction srcs with
  | nil =>
    intro b _ _ c hc
    rcases List.mem_cons.mp hc with rfl | hm
    · exact
        ⟨fun p hp => ⟨p.1, hp⟩, fun p hp => ⟨p.1, hp⟩, fun p hp => ⟨p.1, hp⟩,
          fun p hp => ⟨p.1, p.2, hp, rfl⟩⟩
    · simp at hm
  | cons s rest ih =>
    intro b hb hall c hc
    have hs := hall s (List.mem_cons_self s rest)
    have hall2 : ∀ s2 ∈ rest, CWF s2 := fun s2 h2 => hall s2 (List.mem_cons_of_mem _ h2)
    have hstep : mergeList b (s :: rest) = mergeList (appendC b s) rest := rfl
    have ihead :=
      ih (appendC b s) (CWF_appendC hb hs) hall2 (appendC b s)
        (List.mem_cons_self _ rest)
    rcases List.mem_cons.mp hc with rfl | hm
    · -- parts of the base survive the first append, then the rest of the fold
      rw [hstep]
      refine ⟨?_, ?_, ?_, ?_⟩
      · intro p hp
        exact ihead.1 _ (appendC_mem_b_slides hs hp)
      · intro p hp
        exact ihead.2.1 _ (appendC_mem_b_layouts hs hp)
      · intro p hp
        exact ihead.2.2.1 _ (appendC_mem_b_themes hs hp)
      · intro p hp
        obtain ⟨v', hv', hbody⟩ := appendC_mem_b_masters hb hs hp
        obtain ⟨n, v2, hv2, hb2⟩ := ihead.2.2.2 _ hv'
        exact ⟨n, v2, hv2, hb2.trans hbody⟩
    · rcases List.mem_cons.mp hm with rfl | hm2
      · -- parts of the appended source
        rw [hstep]
        refine ⟨?_, ?_, ?_, ?_⟩
        · intro p hp
          exact ihead.1 (p.1 + maxKey b.slides, p.2) (appendC_mem_s_slides hs hp)
        · intro p hp
          exact ihead.2.1 (p.1 + maxKey b.layouts, p.2) (appendC_mem_s_layouts hs hp)
        · intro p hp
          exact ihead.2.2.1 (p.1 + maxKey b.themes, p.2) (appendC_mem_s_themes hs hp)
        · intro p hp
          obtain ⟨v', hv', hbody⟩ := appendC_mem_s_masters hb hs hp
          obtain ⟨n, v2, hv2, hb2⟩ := ihead.2.2.2 _ hv'
          exact ⟨n, v2, hv2, hb2.trans hbody⟩
      · rw [hstep]
        exact ih (appendC b s) (CWF_appendC hb hs) hall2 c
          (List.mem_cons_of_mem _ hm2)

/-- The folded merge's per-family part counts are the sums of the sources'
counts. -/
theorem mergeList_counts (srcs : List Container) :
    ∀ b : Container, CWF b → (∀ s ∈ srcs, CWF s) →
      (mergeList b srcs).slides.length =
          b.slides.length + (srcs.map (fun c => c.slides.length)).sum ∧
        (mergeList b srcs).layouts.length =
          b.layouts.length + (srcs.map (fun c => c.layouts.length)).sum ∧
        (mergeList b srcs).masters.length =
          b.masters.length + (srcs.map (fun c => c.masters.length)).sum ∧
        (mergeList b srcs).themes.length =
          b.themes.length + (srcs.map (fun c => c.themes.length)).sum := by
  induction srcs with
  | nil => intro b _ _; simp [mergeList]
  | cons s rest ih =>
    intro b hb hall
    have hs := hall s (List.mem_cons_self s rest)
    have hall2 : ∀ s2 ∈ rest, CWF s2 := fun s2 h2 => hall s2 (List.mem_cons_of_mem _ h2)
    have hstep : mergeList b (s :: rest) = mergeList (appendC b s) rest := rfl
    have hr := ih (appendC b s) (CWF_appendC hb hs) hall2
    rw [hstep]
    refine ⟨?_, ?_, ?_, ?_⟩
    · rw [hr.1, appendC_slides_length b s hs]
      simp
      omega
    · rw [hr.2.1, appendC_layouts_length b s hs]
      simp
      omega
    · rw [hr.2.2.1, appendC_masters_length b s hs]
      simp
      omega
    · rw [hr.2.2.2, appendC_themes_length b s hs]
      simp
      omega

/-- The folded merge preserves validity, in particular per-family suffix
uniqueness. -/
theorem mergeList_CWF (srcs : List Container) :
    ∀ b : Container, CWF b → (∀ s ∈ srcs, CWF s) → CWF (mergeList b srcs) := by
  induction srcs with
  | nil => intro b hb _; exact hb
  | cons s rest ih =>
    intro b hb hall
    exact ih (appendC b s) (CWF_appendC hb (hall s (List.mem_cons_self s rest)))
      (fun s2 h2 => hall s2 (List.mem_cons_of_mem _ h2))

/-! ### Claim C1 -/

/-- C1, counterexample: the merger registers an appended source's slides in
ascending part-number order, not in the source's own displayed order.  For
the valid source cexB, displayed [2, 1], merging [cexA, cexB] yields the
displayed order [1, 2, 3] instead of the claimed
displayOrder cexA ++ shifted displayOrder cexB = [1, 3, 2]. -/
theorem claim_C1_counterexample :
    displayOrder cexA = [1] ∧
      displayOrder cexB = [2, 1] ∧
      displayOrder (mergeList cexA [cexB]) = [1, 2, 3] ∧
      displayOrder cexA ++ (displayOrder cexB).map (· + maxKey cexA.slides) = [1, 3, 2] ∧
      displayOrder (mergeList cexA [cexB]) ≠
        displayOrder cexA ++ (displayOrder cexB).map (· + maxKey cexA.slides) := by
  refine ⟨by decide, by decide, by decide, by decide, by decide⟩

/-- C1 (amended): for every valid base and every list of valid appended
sources whose internal displayed order is ascending in their slide part
numbers (the order the merger actually registers), the merged manifest
order is the base's displayed order followed by each appended source's own
displayed order, shifted by the cumulative per-step offsets, concatenated in
call order. -/
theorem claim_C1 (b : Container) (srcs : List Container) (hb : CWF b)
    (hall : ∀ s ∈ srcs, CWF s ∧ displayOrder s = numsOf s.slides) :
    displayOrder (mergeList b srcs) =
      displayOrder b ++ (shiftedDisplays (maxKey b.slides) srcs).flatten :=
  mergeList_display srcs b hb hall

/-- C1, witness at concrete containers. -/
theorem claim_C1_witness :
    (CWF cexA ∧ ∀ s ∈ [cexC], CWF s ∧ displayOrder s = numsOf s.slides) ∧
      displayOrder (mergeList cexA [cexC]) =
        displayOrder cexA ++ (shiftedDisplays (maxKey cexA.slides) [cexC]).flatten := by
  have hb : CWF cexA := by
    refine ⟨?_, ?_, ?_, ?_, ?_, ?_, ?_, ?_, ?_⟩ <;> decide
  have hc : CWF cexC := by
    refine ⟨?_, ?_, ?_, ?_, ?_, ?_, ?_, ?_, ?_⟩ <;> decide
  have hall : ∀ s ∈ [cexC], CWF s ∧ displayOrder s = numsOf s.slides := by
    intro s hs
    rw [List.mem_singleton] at hs
    subst hs
    exact ⟨hc, by decide⟩
  exact ⟨⟨hb, hall⟩, claim_C1 cexA [cexC] hb hall⟩

/-! ### Claim C2 -/

/-- C2: for every valid nonempty source list, the merge result's per-family
part counts equal the sums of the sources' counts, and no slide, layout,
master, or theme part of any source is dropped: each reappears renumbered
in the result with identical bytes (for a master, an identical body; its
layout id list is rewritten by design). -/
theorem claim_C2 (b : Container) (srcs : List Container) (hb : CWF b)
    (hall : ∀ s ∈ srcs, CWF s) :
    ((mergeList b srcs).slides.length =
        ((b :: srcs).map (fun c => c.slides.length)).sum ∧
      (mergeList b srcs).layouts.length =
        ((b :: srcs).map (fun c => c.layouts.length)).sum ∧
      (mergeList b srcs).masters.length =
        ((b :: srcs).map (fun c => c.masters.length)).sum ∧
      (mergeList b srcs).themes.length =
        ((b :: srcs).map (fun c => c.themes.length)).sum) ∧
      (∀ c ∈ b :: srcs,
        (∀ p ∈ c.slides, ∃ n, (n, p.2) ∈ (mergeList b srcs).slides) ∧
        (∀ p ∈ c.layouts, ∃ n, (n, p.2) ∈ (mergeList b srcs).layouts) ∧
        (∀ p ∈ c.themes, ∃ n, (n, p.2) ∈ (mergeList b srcs).themes) ∧
        (∀ p ∈ c.masters,
          ∃ n v', (n, v') ∈ (mergeList b srcs).masters ∧ v'.body = p.2.body)) := by
  have hc := mergeList_counts srcs b hb hall
  refine ⟨⟨?_, ?_, ?_, ?_⟩, mergeList_part_mem srcs b hb hall⟩
  · rw [hc.1]; simp
  · rw [hc.2.1]; simp
  · rw [hc.2.2.1]; simp
  · rw [hc.2.2.2]; simp

/-- C2, witness at concrete containers. -/
theorem claim_C2_witness :
    (CWF cexA ∧ ∀ s ∈ [cexB], CWF s) ∧
      (mergeList cexA [cexB]).slides.length =
        (([cexA, cexB] : List Container).map (fun c => c.slides.length)).sum := by
  have hb : CWF cexA := by
    refine ⟨?_, ?_, ?_, ?_, ?_, ?_, ?_, ?_, ?_⟩ <;> decide
  have hs : CWF cexB := by
    refine ⟨?_, ?_, ?_, ?_, ?_, ?_, ?_, ?_, ?_⟩ <;> decide
  have hall : ∀ s ∈ [cexB], CWF s := by
    intro s h
    rw [List.mem_singleton] at h
    subst h
    exact hs
  exact ⟨⟨hb, hall⟩, (claim_C2 cexA [cexB] hb hall).1.1⟩

/-! ### Claim C3 -/

/-- C3: merging the one-slide containers holding pic.png with bytes X and
with bytes Y (X different from Y) yields exactly the two media files
pic.png with X and the deterministically renamed pic_m1.png with Y; both
original slides' image relationships still resolve to their own bytes, and
the rename scheme tries stem_mN.ext with increasing N until a free name is
found. -/
theorem claim_C3 (X Y : Bytes) (hXY : X ≠ Y) :
    (mergeList (c3A X) [c3B Y]).media =
        [(strC "pic.png", X), (strC "pic_m1.png", Y)] ∧
      ((mergeList (c3A X) [c3B Y]).media.map Prod.snd).Nodup ∧
      strC "pic.png" ≠ strC "pic_m1.png" ∧
      (lookupA (mergeList (c3A X) [c3B Y]).slideRels 1).map
          (fun rl => rl.map (fun r => resolveMedia (mergeList (c3A X) [c3B Y]) r.target)) =
        some [some X] ∧
      (lookupA (mergeList (c3A X) [c3B Y]).slideRels 2).map
          (fun rl => rl.map (fun r => resolveMedia (mergeList (c3A X) [c3B Y]) r.target)) =
        some [some Y] ∧
      freshNameAux (strC "pic") (strC ".png") [strC "pic.png"] 2 1 = strC "pic_m1.png" ∧
      freshNameAux (strC "pic") (strC ".png") [strC "pic.png", strC "pic_m1.png"] 3 1 =
        strC "pic_m2.png" := by
  refine ⟨rfl, ?_, by decide, rfl, rfl, by decide, by decide⟩
  show ([X, Y] : List Bytes).Nodup
  simp [hXY]

/-- C3, witness at concrete bytes. -/
theorem claim_C3_witness :
    ([0] : Bytes) ≠ [1] ∧
      (mergeList (c3A [0]) [c3B [1]]).media =
        [(strC "pic.png", [0]), (strC "pic_m1.png", [1])] := by
  refine ⟨by decide, ?_⟩
  exact (claim_C3 [0] [1] (by decide)).1

/-! ### Claim C6 -/

/-- C6: after any valid merge no two parts of the same family share a
numeric suffix, and each append step shifts every family's suffixes by the
additive per-family offset equal to the base's maximum suffix. -/
theorem claim_C6 (b : Container) (srcs : List Container) (hb : CWF b)
    (hall : ∀ s ∈ srcs, CWF s) :
    ((keysA (mergeList b srcs).slides).Nodup ∧
      (keysA (mergeList b srcs).layouts).Nodup ∧
      (keysA (mergeList b srcs).masters).Nodup ∧
      (keysA (mergeList b srcs).themes).Nodup) ∧
      (∀ b2 s2 : Container, CWF b2 → CWF s2 →
        keysA (appendC b2 s2).slides =
            keysA b2.slides ++ (numsOf s2.slides).map (· + maxKey b2.slides) ∧
          keysA (appendC b2 s2).layouts =
            keysA b2.layouts ++ (numsOf s2.layouts).map (· + maxKey b2.layouts) ∧
          keysA (appendC b2 s2).masters =
            keysA b2.masters ++ (numsOf s2.masters).map (· + maxKey b2.masters) ∧
          keysA (appendC b2 s2).themes =
            keysA b2.themes ++ (numsOf s2.themes).map (· + maxKey b2.themes)) := by
  have hw := mergeList_CWF srcs b hb hall
  refine ⟨⟨hw.sldNodup, hw.layNodup, hw.mstNodup, hw.thmNodup⟩, ?_⟩
  intro b2 s2 hb2 hs2
  refine ⟨?_, ?_, ?_, ?_⟩
  · rw [appendC_slides]
    exact keysA_famStep b2.slides s2.slides hs2.sldNodup hs2.sldPos
  · rw [appendC_layouts]
    exact keysA_famStep b2.layouts s2.layouts hs2.layNodup hs2.layPos
  · exact appendC_keysA_masters b2 s2 hs2.mstNodup hs2.mstPos
  · rw [appendC_themes]
    exact keysA_famStep b2.themes s2.themes hs2.thmNodup hs2.thmPos

/-- C6, witness at concrete containers. -/
theorem claim_C6_witness :
    (CWF cexA ∧ ∀ s ∈ [cexB], CWF s) ∧
      (keysA (mergeList cexA [cexB]).slides).Nodup := by
  have hb : CWF cexA := by
    refine ⟨?_, ?_, ?_, ?_, ?_, ?_, ?_, ?_, ?_⟩ <;> decide
  have hs : CWF cexB := by
    refine ⟨?_, ?_, ?_, ?_, ?_, ?_, ?_, ?_, ?_⟩ <;> decide
  have hall : ∀ s ∈ [cexB], CWF s := by
    intro s h
    rw [List.mem_singleton] at h
    subst h
    exact hs
  exact ⟨⟨hb, hall⟩, (claim_C6 cexA [cexB] hb hall).1.1⟩

/-! ### Substitution correctness lemmas (claim C4) -/

theorem infix_of_mem_flatten_map {α β : Type} (f : α → List β) {x : α} :
    ∀ {l : List α}, x ∈ l → f x <:+: (l.map f).flatten := by
  intro l hx
  induction l with
  | nil => simp at hx
  | cons y t ih =>
    rcases List.mem_cons.mp hx with rfl | hm
    · exact ⟨[], (t.map f).flatten, by simp⟩
    · obtain ⟨a, b, hab⟩ := ih hm
      exact ⟨f y ++ a, b, by simp [← hab]⟩

theorem cellParas_subst (vars : List (Str × Str)) (c : Cell) :
    cellParas (substCell vars c) = (cellParas c).map (substPara vars) := by
  obtain ⟨bodies⟩ := c
  cases bodies with
  | nil => rfl
  | cons b rest => rfl

theorem shapeParas_subst (vars : List (Str × Str)) (sh : Shape) :
    shapeParas (substShape vars sh) = (shapeParas sh).map (substPara vars) := by
  obtain ⟨stype, w, h, top, tf, tab, blips, nm⟩ := sh
  cases tf <;> cases tab <;>
    simp [substShape, shapeParas, substTable, substTextFrame, cellParas_subst,
      List.map_flatten, List.map_map, Function.comp_def]

theorem allParas_subst (vars : List (Str × Str)) (prs : Prs) :
    allParas (substitute vars prs) = (allParas prs).map (substPara vars) := by
  simp [substitute, allParas, shapeParas_subst, List.map_flatten, List.map_map,
    Function.comp_def]

theorem renderChunk_infix_of_mem {c : Chunk} {cs : List Chunk} (h : c ∈ cs) :
    renderChunk c <:+: render cs :=
  infix_of_mem_flatten_map renderChunk h

theorem hasToken_render_of_tok {cs : List Chunk} {k : Str}
    (hWF : chunksWF cs = true) (hk : Chunk.tok k ∈ cs) :
    hasToken (render cs) = true := by
  simp only [chunksWF, List.all_eq_true] at hWF
  have hkk := hWF _ hk
  simp only [goodKey, Bool.and_eq_true, decide_eq_true_eq] at hkk
  have htok : hasToken (tokPat k) = true :=
    hasToken_iff.mpr ⟨[], k, [], by simp, hkk.1, hkk.2⟩
  exact hasToken_of_substring (renderChunk_infix_of_mem hk) htok

theorem runText_substring {r : XRun} {p : XPara} (h : r ∈ p) :
    r.text.getD [] <:+: paraRunsText p :=
  infix_of_mem_flatten_map (fun r => r.text.getD []) h

theorem substPara_not_affected {vars : List (Str × Str)} {p : XPara}
    (ht : hasToken (paraRunsText p) = false) : substPara vars p = p := by
  simp [substPara, ht]

theorem substPara_affected {vars : List (Str × Str)} {p : XPara}
    (ht : hasToken (paraRunsText p) = true) :
    (substPara vars p).map (fun r => r.text.getD []) =
      substFull vars (paraRunsText p) :: List.replicate (p.length - 1) [] := by
  cases p with
  | nil => simp [paraRunsText, hasToken] at ht
  | cons r0 rest =>
    simp only [substPara, ht, if_true]
    simp [substRun, List.map_map, Function.comp_def, List.map_const']

theorem paraRunsText_substPara_affected {vars : List (Str × Str)} {p : XPara}
    (ht : hasToken (paraRunsText p) = true) :
    paraRunsText (substPara vars p) = substFull vars (paraRunsText p) := by
  cases p with
  | nil => simp [paraRunsText, hasToken] at ht
  | cons r0 rest =>
    simp only [substPara, ht, if_true]
    simp [substRun, paraRunsText, List.map_map, Function.comp_def]

theorem substPara_no_token {vars : List (Str × Str)} {p : XPara}
    {cs : List Chunk}
    (hWF : chunksWF cs = true) (hv : varsWF vars = true)
    (hr : render cs = paraRunsText p)
    (hcov : ∀ k, Chunk.tok k ∈ cs → k ∈ vars.map Prod.fst) :
    ∀ r ∈ substPara vars p, hasToken (r.text.getD []) = false := by
  intro r hrmem
  by_cases ht : hasToken (paraRunsText p) = true
  · cases p with
    | nil => simp [substPara] at hrmem
    | cons r0 rest =>
      simp only [substPara, ht, if_true] at hrmem
      rcases List.mem_cons.mp hrmem with rfl | hin
      · have hfull : (substRun r0 (substFull vars (paraRunsText (r0 :: rest)))).text.getD []
            = render (applyVars vars cs) := by
          simp only [substRun, Option.getD_some, ← hr, substFull_render hWF hv]
        rw [hfull]
        exact hasToken_eq_false_of_no_brace (applyVars_no_brace hWF hv hcov).1
      · simp only [List.mem_map] at hin
        obtain ⟨r1, hr1, rfl⟩ := hin
        simp [substRun, hasToken]
  · rw [substPara_not_affected (Bool.not_eq_true _ ▸ ht)] at hrmem
    rw [Bool.not_eq_true] at ht
    rw [← Bool.not_eq_true]
    intro habs
    rw [hasToken_of_substring (runText_substring hrmem) habs] at ht
    exact Bool.true_eq_false ▸ ht

theorem substPara_uncovered {vars : List (Str × Str)} {p : XPara}
    {cs : List Chunk} {k : Str}
    (hWF : chunksWF cs = true) (hv : varsWF vars = true)
    (hr : render cs = paraRunsText p)
    (hk : Chunk.tok k ∈ cs) (hout : k ∉ vars.map Prod.fst) :
    ∃ a b, paraRunsText (substPara vars p) = a ++ tokPat k ++ b := by
  have ht : hasToken (paraRunsText p) = true :=
    hr ▸ hasToken_render_of_tok hWF hk
  rw [paraRunsText_substPara_affected ht, ← hr, substFull_render hWF hv]
  have hsurv := applyVars_tok_surv hk hout
  obtain ⟨a, b, hab⟩ := renderChunk_infix_of_mem hsurv
  exact ⟨a, b, hab.symm⟩

/-- C4: the claim fails as stated. Two concrete paragraphs where the variable
map contains every key the placeholder regex finds in the text, yet a
well-formed placeholder token remains after substitution: (a) the text is
four braces around the key, so replacing the inner token recombines the
outer brace pairs into a fresh token; (b) a variable value itself contains a
token for another key that was already processed, so the replacement fold
reintroduces it. -/
theorem claim_C4_counterexample :
    (findTokens (strC "{{{{k}}}}") = [strC "k"] ∧
      strC "k" ∈ [(strC "k", strC "v")].map Prod.fst ∧
      (substPara [(strC "k", strC "v")] cex4s).map (fun r => r.text.getD []) =
        [strC "{{v}}"] ∧
      hasToken (strC "{{v}}") = true) ∧
    (findTokens (strC "hi {{b}}") = [strC "b"] ∧
      strC "b" ∈ [(strC "a", strC "X"), (strC "b", strC "{{a}}")].map Prod.fst ∧
      (substPara [(strC "a", strC "X"), (strC "b", strC "{{a}}")] cex4v).map
          (fun r => r.text.getD []) = [strC "hi {{a}}"] ∧
      hasToken (strC "hi {{a}}") = true) := by
  decide

/-- C4, amended: suppose every variable key is a nonempty string of Unicode
word characters (the class the Python regex \w matches, which includes the
pipeline's Korean keys) and every variable value is brace-free. Then (1) for every container each of
whose paragraph texts is an interleaving of brace-free segments and
well-formed tokens with all token keys present in the map, substitution
leaves no placeholder token in any text run, including tokens split across
runs; (2) every affected paragraph gets the fully substituted text in its
first run with all subsequent runs cleared; (3) a token whose key is absent
from the map survives literally in the paragraph text, without error. -/
theorem claim_C4 (vars : List (Str × Str)) (hv : varsWF vars = true) :
    (∀ prs : Prs,
        (∀ p ∈ allParas prs, ∃ cs, chunksWF cs = true ∧
          render cs = paraRunsText p ∧
          ∀ k, Chunk.tok k ∈ cs → k ∈ vars.map Prod.fst) →
        ∀ p ∈ allParas (substitute vars prs), ∀ r ∈ p,
          hasToken (r.text.getD []) = false) ∧
    (∀ p : XPara, hasToken (paraRunsText p) = true →
        (substPara vars p).map (fun r => r.text.getD []) =
          substFull vars (paraRunsText p) :: List.replicate (p.length - 1) []) ∧
    (∀ (p : XPara) (cs : List Chunk) (k : Str), chunksWF cs = true →
        render cs = paraRunsText p → Chunk.tok k ∈ cs →
        k ∉ vars.map Prod.fst →
        ∃ a b, paraRunsText (substPara vars p) = a ++ tokPat k ++ b) := by
  refine ⟨?_, ?_, ?_⟩
  · intro prs hdec p hp r hr
    rw [allParas_subst] at hp
    obtain ⟨p0, hp0, rfl⟩ := List.mem_map.mp hp
    obtain ⟨cs, hWF, hrend, hcov⟩ := hdec p0 hp0
    exact substPara_no_token hWF hv hrend hcov r hr
  · intro p ht
    exact substPara_affected ht
  · intro p cs k hWF hrend hk hout
    exact substPara_uncovered hWF hv hrend hk hout

/-- C4, witness at a concrete container keyed by the pipeline's real Korean
placeholder 고객명, split across two runs. -/
theorem claim_C4_witness :
    hasToken (strC "\x7b\x7b고객명\x7d\x7d 귀중") = true ∧
    findTokens (strC "안녕 \x7b\x7b고객명\x7d\x7d 귀중") = [strC "고객명"] ∧
    varsWF [(strC "고객명", strC "v")] = true ∧
    (∀ p ∈ allParas (substitute [(strC "고객명", strC "v")] cex4prs), ∀ r ∈ p,
      hasToken (r.text.getD []) = false) := by
  refine ⟨by decide, by decide, by decide, ?_⟩
  refine (claim_C4 [(strC "고객명", strC "v")] (by decide)).1 cex4prs ?_
  intro p hp
  have hA : allParas cex4prs =
      [[⟨none, some (strC "안녕 \x7b\x7b고객")⟩, ⟨none, some (strC "명\x7d\x7d 귀중")⟩]] := rfl
  rw [hA, List.mem_singleton] at hp
  subst hp
  refine ⟨[Chunk.seg (strC "안녕 "), Chunk.tok (strC "고객명"),
           Chunk.seg (strC " 귀중")], by decide, by decide, ?_⟩
  intro k hk
  simp only [List.mem_cons, List.not_mem_nil, or_false] at hk
  rcases hk with h | h | h
  · exact absurd h (by simp)
  · rw [Chunk.tok.injEq] at h
    subst h
    decide
  · exact absurd h (by simp)

/-! ### Table injection lemmas (claims C5, C7, C10) -/

theorem find?_cons_pos {A : Type} (p : A → Bool) (a : A) (l : List A)
    (h : p a = true) : List.find? p (a :: l) = some a :=
  List.find?_cons_of_pos l h

theorem find?_cons_neg {A : Type} (p : A → Bool) (a : A) (l : List A)
    (h : p a = false) : List.find? p (a :: l) = List.find? p l :=
  List.find?_cons_of_neg l (by simp [h])

theorem updFirstTable_find (f : Table → Table) :
    ∀ (shapes : List Shape) (tbl : Table),
      (shapes.find? (fun sh => sh.table.isSome)).bind (fun sh => sh.table) =
        some tbl →
      ((updFirstTable f shapes).find? (fun sh => sh.table.isSome)).bind
          (fun sh => sh.table) = some (f tbl) := by
  intro shapes
  induction shapes with
  | nil => intro tbl h; simp at h
  | cons sh rest ih =>
    intro tbl h
    cases ht : sh.table with
    | some t =>
      rw [find?_cons_pos (fun q => q.table.isSome) sh rest (by simp [ht]),
        Option.some_bind, ht, Option.some_inj] at h
      subst h
      simp only [updFirstTable, ht]
      rw [find?_cons_pos (fun q => q.table.isSome) { sh with table := some (f t) }
        rest (by simp), Option.some_bind]
    | none =>
      rw [find?_cons_neg (fun q => q.table.isSome) sh rest (by simp [ht])] at h
      simp only [updFirstTable, ht]
      rw [find?_cons_neg (fun q => q.table.isSome) sh (updFirstTable f rest)
        (by simp [ht])]
      exact ih tbl h

theorem autoFitRows_table (prs : Prs) (sl : Slide) (n : Nat) (tbl : Table)
    (hft : findTable sl = some tbl) :
    ∃ tbl2, findTable (autoFitRows prs sl n).1 = some tbl2 ∧
      tbl2.grid = tbl.grid ∧
      tbl2.rows.length = tbl.rows.length ∧
      tbl2.rows.head? = tbl.rows.head? := by
  have hfind : (sl.shapes.find? (fun sh => sh.table.isSome)).bind
      (fun sh => sh.table) = some tbl := hft
  simp only [autoFitRows]
  split
  · exact ⟨tbl, hft, rfl, rfl, rfl⟩
  · cases hq : sl.shapes.find? (fun sh => sh.table.isSome) with
    | none => rw [hq] at hfind; simp at hfind
    | some sh =>
      rw [hq, Option.some_bind] at hfind
      simp only [hq, hfind]
      split
      · exact ⟨tbl, hft, rfl, rfl, rfl⟩
      · refine ⟨_, updFirstTable_find _ sl.shapes tbl hft, rfl, ?_, ?_⟩ <;>
          cases tbl.rows <;> simp

theorem autoFitCellFont_shape (tbl : Table) (drh : Int) :
    (autoFitCellFont tbl drh).grid = tbl.grid ∧
    (autoFitCellFont tbl drh).rows.length = tbl.rows.length ∧
    (autoFitCellFont tbl drh).rows.head? = tbl.rows.head? := by
  simp only [autoFitCellFont]
  split
  · exact ⟨rfl, rfl, rfl⟩
  · split
    · exact ⟨rfl, rfl, rfl⟩
    · split
      · exact ⟨rfl, rfl, rfl⟩
      · refine ⟨rfl, ?_, ?_⟩ <;> cases tbl.rows <;> simp

theorem injectTable_ok (prs : Prs) (idx : Nat) (rows : List TopicRow)
    (sl : Slide) (tbl : Table) (headerRow template : Row) (rest : List Row)
    (hsl : prs.slides[idx]? = some sl)
    (hft : findTable sl = some tbl)
    (hrows : tbl.rows = headerRow :: template :: rest) :
    ∃ sl' tbl',
      injectTable prs idx rows = .ok { prs with slides := prs.slides.set idx sl' } ∧
      findTable sl' = some tbl' ∧
      tbl'.rows.length = 1 + rows.length ∧
      tbl'.rows.head? = some headerRow := by
  have hft1 :
      findTable
          { sl with
              shapes :=
                updFirstTable
                  (fun t => { t with rows := headerRow :: rows.map (injectRow template) })
                  sl.shapes } =
        some { tbl with rows := headerRow :: rows.map (injectRow template) } :=
    updFirstTable_find _ sl.shapes tbl hft
  simp only [injectTable, hsl, hft, hrows]
  obtain ⟨tbl2, hft2, hg2, hl2, hh2⟩ :=
    autoFitRows_table prs _ rows.length _ hft1
  cases hfit :
      (autoFitRows prs
        { sl with
            shapes :=
              updFirstTable
                (fun t => { t with rows := headerRow :: rows.map (injectRow template) })
                sl.shapes }
        rows.length).2 with
  | none =>
    refine ⟨_, tbl2, rfl, hft2, ?_, ?_⟩
    · rw [hl2]; simp [Nat.add_comm]
    · rw [hh2]; rfl
  | some drh =>
    show ∃ sl' tbl',
        (if drh = 0 then _ else _) = Except.ok { prs with slides := prs.slides.set idx sl' } ∧ _
    by_cases hdrh : drh = 0
    · rw [if_pos hdrh]
      refine ⟨_, tbl2, rfl, hft2, ?_, ?_⟩
      · rw [hl2]; simp [Nat.add_comm]
      · rw [hh2]; rfl
    · rw [if_neg hdrh]
      obtain ⟨hg3, hl3, hh3⟩ := autoFitCellFont_shape tbl2 drh
      refine ⟨_, autoFitCellFont tbl2 drh,
        rfl, updFirstTable_find _ _ tbl2 hft2, ?_, ?_⟩
      · rw [hl3, hl2]; simp [Nat.add_comm]
      · rw [hh3, hh2]; rfl

theorem mapIdx_congr_lt {A B : Type} :
    ∀ (l : List A) (f g : Nat → A → B),
      (∀ i a, i < l.length → f i a = g i a) → l.mapIdx f = l.mapIdx g := by
  intro l
  induction l with
  | nil => intro f g h; rfl
  | cons a t ih =>
    intro f g h
    rw [List.mapIdx_cons, List.mapIdx_cons, h 0 a (by simp),
      ih (fun i => f (i + 1)) (fun i => g (i + 1))
        (fun i a hi => h (i + 1) a (by simpa using hi))]

/-- C5: on a slide whose first table has a header row and at least one data
row, inject_table with the record list succeeds, and the resulting table has
exactly 1 + k rows whose first row is the untouched pre-injection header, so
its cell text is byte-identical. -/
theorem claim_C5 (prs : Prs) (idx : Nat) (rows : List TopicRow)
    (sl : Slide) (tbl : Table) (headerRow template : Row) (rest : List Row)
    (hsl : prs.slides[idx]? = some sl)
    (hft : findTable sl = some tbl)
    (hrows : tbl.rows = headerRow :: template :: rest) :
    ∃ prs' sl' tbl',
      injectTable prs idx rows = .ok prs' ∧
      prs'.slides[idx]? = some sl' ∧
      findTable sl' = some tbl' ∧
      tbl'.rows.length = 1 + rows.length ∧
      tbl'.rows.head? = some headerRow ∧
      tbl'.rows.head?.map (fun r => r.cells.map extractCellText) =
        some (headerRow.cells.map extractCellText) := by
  obtain ⟨sl', tbl', hok, hft', hlen, hhead⟩ :=
    injectTable_ok prs idx rows sl tbl headerRow template rest hsl hft hrows
  have hidx : idx < prs.slides.length := (List.getElem?_eq_some.mp hsl).1
  refine ⟨_, sl', tbl', hok, ?_, hft', hlen, hhead, ?_⟩
  · show (prs.slides.set idx sl')[idx]? = some sl'
    simp [List.getElem?_set, hidx]
  · rw [hhead]; rfl

/-- C5, witness at a concrete one-slide presentation. -/
theorem claim_C5_witness :
    (w5prs.slides[0]? = some w5sl ∧ findTable w5sl = some w5tbl ∧
      w5tbl.rows = ⟨none, []⟩ :: ⟨none, []⟩ :: []) ∧
    ∃ prs' sl' tbl',
      injectTable w5prs 0 [w5topic] = .ok prs' ∧
      prs'.slides[0]? = some sl' ∧
      findTable sl' = some tbl' ∧
      tbl'.rows.length = 1 + 1 ∧
      tbl'.rows.head? = some ⟨none, []⟩ ∧
      tbl'.rows.head?.map (fun r => r.cells.map extractCellText) =
        some ((⟨none, []⟩ : Row).cells.map extractCellText) :=
  ⟨⟨rfl, rfl, rfl⟩,
    claim_C5 w5prs 0 [w5topic] w5sl w5tbl ⟨none, []⟩ ⟨none, []⟩ [] rfl rfl rfl⟩

/-- C10: when the row template has fewer cells than the four fixed record
fields, inject_table still succeeds, and each injected row has exactly the
template's cell count with cell i set from field i — the trailing fields are
silently dropped. -/
theorem claim_C10 (prs : Prs) (idx : Nat) (rows : List TopicRow)
    (sl : Slide) (tbl : Table) (headerRow template : Row) (rest : List Row)
    (hsl : prs.slides[idx]? = some sl)
    (hft : findTable sl = some tbl)
    (hrows : tbl.rows = headerRow :: template :: rest)
    (hshort : template.cells.length < 4) :
    (∃ prs', injectTable prs idx rows = .ok prs') ∧
    (∀ t : TopicRow,
      (injectRow template t).cells.length = template.cells.length ∧
      (injectRow template t).cells =
        template.cells.mapIdx (fun ci c => setCellText c (topicField t ci))) := by
  obtain ⟨sl', tbl', hok, -, -, -⟩ :=
    injectTable_ok prs idx rows sl tbl headerRow template rest hsl hft hrows
  refine ⟨⟨_, hok⟩, ?_⟩
  intro t
  constructor
  · simp [injectRow]
  · show template.cells.mapIdx
        (fun ci c => if ci < 4 then setCellText c (topicField t ci) else c) =
      template.cells.mapIdx (fun ci c => setCellText c (topicField t ci))
    exact mapIdx_congr_lt _ _ _
      (fun i a hi => by rw [if_pos (lt_trans hi hshort)])

/-- C10, witness at a concrete two-cell template. -/
theorem claim_C10_witness :
    (w10prs.slides[0]? = some w10sl ∧ findTable w10sl = some w10tbl ∧
      w10tbl.rows = ⟨none, []⟩ :: w10tmpl :: [] ∧ w10tmpl.cells.length < 4) ∧
    (∃ prs', injectTable w10prs 0 [w10topic] = .ok prs') ∧
    (∀ t : TopicRow,
      (injectRow w10tmpl t).cells.length = w10tmpl.cells.length ∧
      (injectRow w10tmpl t).cells =
        w10tmpl.cells.mapIdx (fun ci c => setCellText c (topicField t ci))) :=
  ⟨⟨rfl, rfl, rfl, by decide⟩,
    claim_C10 w10prs 0 [w10topic] w10sl w10tbl ⟨none, []⟩ w10tmpl [] rfl rfl rfl
      (by decide)⟩

/-- C7: the font auto-fit pass leaves the header row untouched, leaves every
cell outside the designated free-text columns two and three byte-identical,
and rewrites a designated column's cell only to the same cell with a font
size at least 850 hundredths of a point (the 8.5 pt floor) applied. -/
theorem claim_C7 (tbl : Table) (drh : Int) :
    ((autoFitCellFont tbl drh).rows.head? = tbl.rows.head?) ∧
    (∀ (i j : Nat), ¬(j = 2 ∨ j = 3) →
      ((autoFitCellFont tbl drh).rows[i]?.bind (fun (r : Row) => r.cells[j]?)) =
        (tbl.rows[i]?.bind (fun (r : Row) => r.cells[j]?))) ∧
    (∀ (i j : Nat), (j = 2 ∨ j = 3) →
      ∀ c2,
        ((autoFitCellFont tbl drh).rows[i]?.bind (fun (r : Row) => r.cells[j]?)) =
          some c2 →
        ∃ c1, (tbl.rows[i]?.bind (fun (r : Row) => r.cells[j]?)) = some c1 ∧
          (c2 = c1 ∨ ∃ sz, 850 ≤ sz ∧ c2 = setCellFontSize c1 sz)) := by
  have hid : ∀ rows2 : List Row, rows2 = tbl.rows →
      (rows2.head? = tbl.rows.head?) ∧
      (∀ (i j : Nat), ¬(j = 2 ∨ j = 3) →
        (rows2[i]?.bind (fun (r : Row) => r.cells[j]?)) =
          (tbl.rows[i]?.bind (fun (r : Row) => r.cells[j]?))) ∧
      (∀ (i j : Nat), (j = 2 ∨ j = 3) →
        ∀ c2, (rows2[i]?.bind (fun (r : Row) => r.cells[j]?)) = some c2 →
          ∃ c1, (tbl.rows[i]?.bind (fun (r : Row) => r.cells[j]?)) = some c1 ∧
            (c2 = c1 ∨ ∃ sz, 850 ≤ sz ∧ c2 = setCellFontSize c1 sz)) := by
    rintro rows2 rfl
    exact ⟨rfl, fun i j hj => rfl,
      fun i j hj c2 hc2 => ⟨c2, hc2, Or.inl rfl⟩⟩
  simp only [autoFitCellFont]
  split
  · exact hid tbl.rows rfl
  · split
    · exact hid tbl.rows rfl
    · split
      · exact hid tbl.rows rfl
      · cases htr : tbl.rows with
        | nil =>
          exact ⟨rfl, fun i j hj => rfl, fun i j hj c2 hc2 => ⟨c2, hc2, Or.inl rfl⟩⟩
        | cons hrow drows =>
          refine ⟨rfl, ?_, ?_⟩
          · intro i j hj
            cases i with
            | zero => simp
            | succ i =>
              simp only [List.getElem?_cons_succ, List.getElem?_map]
              cases hd : drows[i]? with
              | none => rfl
              | some r =>
                simp only [Option.map_some', Option.some_bind,
                  List.getElem?_mapIdx]
                cases hc : r.cells[j]? with
                | none => rfl
                | some c =>
                  simp only [Option.map_some']
                  rw [if_neg hj]
          · intro i j hj c2 hc2
            cases i with
            | zero =>
              refine ⟨c2, ?_, Or.inl rfl⟩
              simpa using hc2
            | succ i =>
              simp only [List.getElem?_cons_succ, List.getElem?_map] at hc2 ⊢
              cases hd : drows[i]? with
              | none => rw [hd] at hc2; simp at hc2
              | some r =>
                rw [hd] at hc2
                simp only [Option.map_some', Option.some_bind,
                  List.getElem?_mapIdx] at hc2
                cases hc : r.cells[j]? with
                | none => rw [hc] at hc2; simp at hc2
                | some c =>
                  rw [hc] at hc2
                  simp only [Option.map_some', Option.some_inj] at hc2
                  rw [if_pos hj] at hc2
                  exact ⟨c, by rw [Option.some_bind, hc],
                    Or.inr ⟨_, le_max_right _ _, hc2.symm⟩⟩

/-- C7, witness at a concrete table. -/
theorem claim_C7_witness :
    (autoFitCellFont w7tbl 0).rows.head? = w7tbl.rows.head? ∧
    ((autoFitCellFont w7tbl 0).rows[1]?.bind (fun r => r.cells[0]?)) =
      (w7tbl.rows[1]?.bind (fun r => r.cells[0]?)) :=
  ⟨(claim_C7 w7tbl 0).1, (claim_C7 w7tbl 0).2.1 1 0 (by decide)⟩

/-! ### Picture selection lemmas (claim C9) -/

theorem selectPicAux_skip :
    ∀ (shapes : List Shape) (b : Option Shape) (a : Int),
      (∀ sh ∈ shapes, sh.shapeType = 13 → sh.width * sh.height ≤ a) →
      selectPicAux shapes b a = (b, a) := by
  intro shapes
  induction shapes with
  | nil => intro b a h; rfl
  | cons sh t ih =>
    intro b a h
    have hcond : ¬(sh.shapeType = 13 ∧ sh.width * sh.height > a) := by
      rintro ⟨h13, hgt⟩
      exact absurd hgt (not_lt.mpr (h sh (List.mem_cons_self sh t) h13))
    simp only [selectPicAux, if_neg hcond]
    exact ih b a (fun q hq hq13 => h q (List.mem_cons_of_mem _ hq) hq13)

theorem selectPicAux_append :
    ∀ (l1 l2 : List Shape) (b : Option Shape) (a : Int),
      selectPicAux (l1 ++ l2) b a =
        selectPicAux l2 (selectPicAux l1 b a).1 (selectPicAux l1 b a).2 := by
  intro l1
  induction l1 with
  | nil => intro l2 b a; rfl
  | cons sh t ih =>
    intro l2 b a
    by_cases hc : sh.shapeType = 13 ∧ sh.width * sh.height > a
    · simp only [List.cons_append, selectPicAux, if_pos hc]
      exact ih l2 _ _
    · simp only [List.cons_append, selectPicAux, if_neg hc]
      exact ih l2 b a

theorem selectPicAux_snd_lt :
    ∀ (shapes : List Shape) (b : Option Shape) (a A : Int),
      a < A →
      (∀ sh ∈ shapes, sh.shapeType = 13 → sh.width * sh.height < A) →
      (selectPicAux shapes b a).2 < A := by
  intro shapes
  induction shapes with
  | nil => intro b a A ha h; exact ha
  | cons sh t ih =>
    intro b a A ha h
    by_cases hc : sh.shapeType = 13 ∧ sh.width * sh.height > a
    · simp only [selectPicAux, if_pos hc]
      exact ih _ _ A (h sh (List.mem_cons_self sh t) hc.1)
        (fun q hq hq13 => h q (List.mem_cons_of_mem _ hq) hq13)
    · simp only [selectPicAux, if_neg hc]
      exact ih b a A ha (fun q hq hq13 => h q (List.mem_cons_of_mem _ hq) hq13)

/-- C9: when every picture shape on the slide has bounding-box area zero,
replace_slide_image raises the no-picture error although pictures exist,
because a candidate must strictly beat the running best area initialized to
zero; and among pictures tying for the largest positive area the first in
shape order is the one selected. -/
theorem claim_C9 :
    (∀ (prs : Prs) (idx : Nat) (sl : Slide) (img : Bytes),
      prs.slides[idx]? = some sl →
      (∃ sh ∈ sl.shapes, sh.shapeType = 13) →
      (∀ sh ∈ sl.shapes, sh.shapeType = 13 → sh.width * sh.height = 0) →
      replaceSlideImage prs idx img = .error (.noPicture idx)) ∧
    (∀ (pre : List Shape) (sh : Shape) (post : List Shape),
      sh.shapeType = 13 →
      0 < sh.width * sh.height →
      (∀ q ∈ pre, q.shapeType = 13 → q.width * q.height < sh.width * sh.height) →
      (∀ q ∈ post, q.shapeType = 13 → q.width * q.height ≤ sh.width * sh.height) →
      selectPic (pre ++ sh :: post) = some sh) := by
  constructor
  · intro prs idx sl img hsl hex hzero
    have hsel : selectPic sl.shapes = none := by
      rw [selectPic,
        selectPicAux_skip sl.shapes none 0
          (fun q hq h13 => le_of_eq (hzero q hq h13))]
    simp only [replaceSlideImage, hsl, hsel]
  · intro pre sh post h13 hpos hpre hpost
    rw [selectPic, selectPicAux_append]
    have h2 : (selectPicAux pre none 0).2 < sh.width * sh.height :=
      selectPicAux_snd_lt pre none 0 _ hpos hpre
    simp only [selectPicAux, if_pos (And.intro h13 h2)]
    rw [selectPicAux_skip post _ _ hpost]

/-- C9, witness: the zero-area picture slide yields the no-picture error. -/
theorem claim_C9_witness :
    replaceSlideImage w9prs 0 [] = .error (.noPicture 0) :=
  claim_C9.1 w9prs 0 w9sl [] rfl ⟨⟨13, 0, 5, 0, none, none, [7], strC "p"⟩,
    by decide⟩ (by decide)

/-! ### Error-handling lemmas (claim C8) -/

theorem runPages_acc :
    ∀ (pages : List PageJob) (acc : List Str × List Str),
      pages.foldl
        (fun acc p =>
          match p.outcome with
          | .ok (some path) => (acc.1 ++ [path], acc.2)
          | .ok none => acc
          | .error e => (acc.1, acc.2 ++ [pageErrMsg p.name e]))
        acc =
      (acc.1 ++ pagePaths pages, acc.2 ++ pageErrs pages) := by
  intro pages
  induction pages with
  | nil => intro acc; simp [pagePaths, pageErrs]
  | cons p t ih =>
    intro acc
    rw [List.foldl_cons]
    cases ho : p.outcome with
    | ok op =>
      cases op with
      | some path =>
        rw [ih]
        simp [pagePaths, pageErrs, List.filterMap_cons, ho]
      | none =>
        rw [ih]
        simp [pagePaths, pageErrs, List.filterMap_cons, ho]
    | error e =>
      rw [ih]
      simp [pagePaths, pageErrs, List.filterMap_cons, ho]

theorem runPages_spec (pages : List PageJob) :
    runPages pages = (pagePaths pages, pageErrs pages) := by
  rw [runPages, runPages_acc pages ([], [])]
  simp

/-- C8: the injector's error conditions are exactly the missing parts — a
slide without a table yields the no-table error, a table whose only row is
the header yields the no-data-row error, a slide where no picture is
selected yields the no-picture error — the three errors are pairwise
distinct, and the orchestrator page loop records each failed page's message
and still processes every remaining page. -/
theorem claim_C8 :
    (∀ (prs : Prs) (idx : Nat) (rows : List TopicRow) (sl : Slide),
      prs.slides[idx]? = some sl → findTable sl = none →
      injectTable prs idx rows = .error (.noTable idx)) ∧
    (∀ (prs : Prs) (idx : Nat) (rows : List TopicRow) (sl : Slide) (tbl : Table)
        (hd : Row),
      prs.slides[idx]? = some sl → findTable sl = some tbl → tbl.rows = [hd] →
      injectTable prs idx rows = .error .noDataRow) ∧
    (∀ (prs : Prs) (idx : Nat) (img : Bytes) (sl : Slide),
      prs.slides[idx]? = some sl → selectPic sl.shapes = none →
      replaceSlideImage prs idx img = .error (.noPicture idx)) ∧
    (∀ i j : Nat,
      RErr.noTable i ≠ RErr.noDataRow ∧
      RErr.noTable i ≠ RErr.noPicture j ∧
      (RErr.noDataRow : RErr) ≠ RErr.noPicture j) ∧
    (∀ pages : List PageJob, runPages pages = (pagePaths pages, pageErrs pages)) ∧
    (∀ (pre post : List PageJob) (nm e : Str),
      runPages (pre ++ ⟨nm, .error e⟩ :: post) =
        (pagePaths pre ++ pagePaths post,
         pageErrs pre ++ pageErrMsg nm e :: pageErrs post)) := by
  refine ⟨?_, ?_, ?_, ?_, runPages_spec, ?_⟩
  · intro prs idx rows sl hsl hft
    simp only [injectTable, hsl, hft]
  · intro prs idx rows sl tbl hd hsl hft hrows
    simp only [injectTable, hsl, hft, hrows]
  · intro prs idx img sl hsl hsel
    simp only [replaceSlideImage, hsl, hsel]
  · intro i j
    refine ⟨fun h => ?_, fun h => ?_, fun h => ?_⟩ <;> exact RErr.noConfusion h
  · intro pre post nm e
    rw [runPages_spec]
    simp [pagePaths, pageErrs, List.filterMap_append, List.filterMap_cons]

/-- C8, witness at a concrete empty slide and a concrete page list. -/
theorem claim_C8_witness :
    injectTable ⟨6858000, [⟨[], []⟩]⟩ 0 [] = .error (.noTable 0) ∧
    runPages [⟨strC "p1", .error (strC "x")⟩, ⟨strC "p2", .ok (some (strC "o"))⟩] =
      (pagePaths [⟨strC "p1", .error (strC "x")⟩, ⟨strC "p2", .ok (some (strC "o"))⟩],
       pageErrs [⟨strC "p1", .error (strC "x")⟩, ⟨strC "p2", .ok (some (strC "o"))⟩]) :=
  ⟨claim_C8.1 ⟨6858000, [⟨[], []⟩]⟩ 0 [] ⟨[], []⟩ rfl rfl,
    claim_C8.2.2.2.2.1 [⟨strC "p1", .error (strC "x")⟩,
      ⟨strC "p2", .ok (some (strC "o"))⟩]⟩

end PPl
